import Mathlib

/-!
Verification development for the JavaScript/TypeScript → Python source
translator implemented in `learn/js_to_python_converter.py`.

The program is embedded shallowly: Python strings become `List Char`,
each `re.sub` call becomes an application of a small backtracking
regular-expression engine (`Re`, `Re.mtchAll`, `subFuel`) that mirrors
the leftmost / greedy / backtracking semantics of Python's `re` module
for the pattern features the converter uses (character classes,
capturing groups, alternation, greedy `*` `+` `?`, word boundaries,
negative lookahead, a single-character negative lookbehind, a
MULTILINE `$`, and backreferences), and each fallible Python operation
(`str.index`, `str.rindex`, two-element unpacking of `str.split`,
list indexing, substitution-template group references) becomes an
`Option`-valued operation, so that "the converter raises no exception"
is the provable statement "the embedded converter returns `some`".

Character classes `\w`, `\s`, `\d` and `str.strip` are modeled at
their ASCII meaning.
-/

namespace JsPy

/-- Abbreviation used throughout: Python strings are lists of chars. -/
abbrev Str := List Char

def s2l (s : String) : Str := s.data

def l2s (l : Str) : String := String.mk l

/-- `\w` at its ASCII meaning: `[a-zA-Z0-9_]`. -/
def isWordChar (c : Char) : Bool :=
  (('a' ≤ c && c ≤ 'z') || ('A' ≤ c && c ≤ 'Z') || ('0' ≤ c && c ≤ '9') || c = '_')

/-- `\s` at its ASCII meaning: `[ \t\n\r\x0b\x0c]`. -/
def isSpaceChar (c : Char) : Bool :=
  (c = ' ' || c = '\t' || c = '\n' || c = '\x0d' || c = '\x0b' || c = '\x0c')

/-- `\d`: `[0-9]`. -/
def isDigitChar (c : Char) : Bool := ('0' ≤ c && c ≤ '9')

/-- Python `str.lstrip()` (ASCII whitespace). -/
def lstrip : Str → Str
  | [] => []
  | c :: t => if isSpaceChar c then lstrip t else c :: t

/-- Python `str.rstrip()` (ASCII whitespace). -/
def rstrip (l : Str) : Str := (lstrip l.reverse).reverse

/-- Python `str.strip()` (ASCII whitespace). -/
def pyStrip (l : Str) : Str := rstrip (lstrip l)

/-- Python `sub in s` (substring containment). -/
def containsSubstr (s pat : Str) : Bool := (s.tails.any fun t => pat.isPrefixOf t)

/-- Python `c in s` for a single character. -/
def hasChar : Str → Char → Bool
  | [], _ => false
  | c :: t, x => (x = c || hasChar t x)

/-- An `Option`-valued map over a list (the monadic image of a Python
list comprehension whose body may raise). -/
def optMapM {α β : Type} (f : α → Option β) : List α → Option (List β)
  | [] => some []
  | a :: t => do
    let b ← f a
    let r ← optMapM f t
    some (b :: r)

/-- Python `s.startswith(p)`. -/
def startsWith (s p : Str) : Bool := p.isPrefixOf s

/-- Python `s.endswith(p)`. -/
def endsWith (s p : Str) : Bool := p.reverse.isPrefixOf s.reverse

/-- Python `s.startswith((p₁, …, pₙ))`. -/
def startsWithAny (s : Str) (ps : List Str) : Bool := ps.any fun p => startsWith s p

/-- Python `s.split(sep)` for a one-character separator. -/
def splitOnChar (sep : Char) : Str → List Str
  | [] => [[]]
  | c :: t =>
    if c = sep then [] :: splitOnChar sep t
    else match splitOnChar sep t with
      | [] => [[c]]
      | h :: r => (c :: h) :: r

/-- Python `sep.join(parts)` for a one-character separator. -/
def joinChar (sep : Char) : List Str → Str
  | [] => []
  | [l] => l
  | l :: r => l ++ sep :: joinChar sep r

/-- Python `sep.join(parts)` for a string separator. -/
def joinStr (sep : Str) : List Str → Str
  | [] => []
  | [l] => l
  | l :: r => l ++ sep ++ joinStr sep r

/-- Python `s.split(sep, 1)` for a one-character separator, returned only
when the separator occurs (the two-element unpacking `a, b = s.split(c, 1)`
raises otherwise). -/
def splitOnce (sep : Char) : Str → Option (Str × Str)
  | [] => none
  | c :: t =>
    if c = sep then some ([], t)
    else (splitOnce sep t).map fun p => (c :: p.1, p.2)

/-- Python `s.index(c)` as an `Option` (raises `ValueError` when absent). -/
def idxOf? (sep : Char) : Str → Option Nat
  | [] => none
  | c :: t => if c = sep then some 0 else (idxOf? sep t).map (· + 1)

/-- Python `s.rindex(c)` as an `Option`. -/
def rIdxOf? (sep : Char) (l : Str) : Option Nat :=
  (idxOf? sep l.reverse).map fun i => l.length - 1 - i

/-- Python `s.replace(pat, rep)` (left-to-right, non-overlapping); fuelled
so the definition is structurally recursive.  The fuel is always called
with `s.length + 1`, which suffices because every step consumes at least
one character of `s` (all pattern arguments in the converter are
non-empty). -/
def replaceAllFuel (pat rep : Str) : Nat → Str → Str
  | 0, s => s
  | _ + 1, [] => []
  | fuel + 1, c :: t =>
    if pat ≠ [] ∧ pat.isPrefixOf (c :: t) then
      rep ++ replaceAllFuel pat rep fuel ((c :: t).drop pat.length)
    else c :: replaceAllFuel pat rep fuel t

def replaceAll (pat rep s : Str) : Str := replaceAllFuel pat rep (s.length + 1) s

/-! ## The regular-expression engine -/

/-- Abstract syntax of the (Python `re`) patterns the converter uses. -/
inductive Re where
  | eps : Re
  | ch (c : Char) : Re
  | str (s : Str) : Re
  | cls (p : Char → Bool) : Re
  | seq (r₁ r₂ : Re) : Re
  | alt (r₁ r₂ : Re) : Re
  | star (r : Re) : Re
  | opt (r : Re) : Re
  | group (idx : Nat) (r : Re) : Re
  | backref (idx : Nat) : Re
  | wordB : Re
  | nla (r : Re) : Re
  | nlbChar (c : Char) : Re
  | eolM : Re

/-- Captures: `(group index, start position, length)`, most recent first. -/
abbrev Caps := List (Nat × Nat × Nat)

def capLookup (caps : Caps) (i : Nat) : Option (Nat × Nat) :=
  (caps.find? fun e => e.1 = i).map fun e => e.2

/-- A match state: previous character (for `\b` and lookbehind), absolute
position, remaining input, captures. -/
structure MSt where
  prev : Option Char
  pos : Nat
  rest : Str
  caps : Caps

def isBoundary (prev : Option Char) (rest : Str) : Bool :=
  let a := match prev with | some c => isWordChar c | none => false
  let b := match rest with | c :: _ => isWordChar c | [] => false
  a ≠ b

/-- Greedy iteration for `star`: all ways of running the body zero or more
times (longest first, matching Python's backtracking preference).  Each
iteration must consume at least one character — all starred bodies in the
converter's patterns are non-nullable, so this matches `re`.  The fuel is
called with `rest.length + 1`, which then never runs out. -/
def mstarGo (body : Option Char → Nat → Str → Caps → List MSt) :
    Nat → Option Char → Nat → Str → Caps → List MSt
  | 0, prev, pos, rest, caps => [⟨prev, pos, rest, caps⟩]
  | fuel + 1, prev, pos, rest, caps =>
    ((body prev pos rest caps).flatMap fun s =>
      if s.rest.length < rest.length then mstarGo body fuel s.prev s.pos s.rest s.caps
      else []) ++ [⟨prev, pos, rest, caps⟩]

/-- All ways `re` can match a prefix of `rest` (which sits at absolute
position `pos` inside the whole subject `subj`), in Python's backtracking
preference order: the head of the list is the match Python's `re` engine
produces. -/
def Re.mtchAll (subj : Str) : Re → Option Char → Nat → Str → Caps → List MSt
  | .eps, prev, pos, rest, caps => [⟨prev, pos, rest, caps⟩]
  | .ch c, _, pos, rest, caps =>
    match rest with
    | [] => []
    | c' :: rest' => if c' = c then [⟨some c', pos + 1, rest', caps⟩] else []
  | .str s, prev, pos, rest, caps =>
    if s.isPrefixOf rest then
      [⟨if s = [] then prev else s.getLast?, pos + s.length, rest.drop s.length, caps⟩]
    else []
  | .cls p, _, pos, rest, caps =>
    match rest with
    | [] => []
    | c' :: rest' => if p c' then [⟨some c', pos + 1, rest', caps⟩] else []
  | .seq r₁ r₂, prev, pos, rest, caps =>
    (Re.mtchAll subj r₁ prev pos rest caps).flatMap fun s =>
      Re.mtchAll subj r₂ s.prev s.pos s.rest s.caps
  | .alt r₁ r₂, prev, pos, rest, caps =>
    Re.mtchAll subj r₁ prev pos rest caps ++ Re.mtchAll subj r₂ prev pos rest caps
  | .star r, prev, pos, rest, caps =>
    mstarGo (Re.mtchAll subj r) (rest.length + 1) prev pos rest caps
  | .opt r, prev, pos, rest, caps =>
    Re.mtchAll subj r prev pos rest caps ++ [⟨prev, pos, rest, caps⟩]
  | .group i r, prev, pos, rest, caps =>
    (Re.mtchAll subj r prev pos rest caps).map fun s =>
      ⟨s.prev, s.pos, s.rest, (i, pos, s.pos - pos) :: s.caps⟩
  | .backref i, prev, pos, rest, caps =>
    match capLookup caps i with
    | none => []
    | some (st, ln) =>
      let t := (subj.drop st).take ln
      if t.isPrefixOf rest then
        [⟨if t = [] then prev else t.getLast?, pos + t.length, rest.drop t.length, caps⟩]
      else []
  | .wordB, prev, pos, rest, caps =>
    if isBoundary prev rest then [⟨prev, pos, rest, caps⟩] else []
  | .nla r, prev, pos, rest, caps =>
    match Re.mtchAll subj r prev pos rest caps with
    | [] => [⟨prev, pos, rest, caps⟩]
    | _ :: _ => []
  | .nlbChar c, prev, pos, rest, caps =>
    if prev = some c then [] else [⟨prev, pos, rest, caps⟩]
  | .eolM, prev, pos, rest, caps =>
    match rest with
    | [] => [⟨prev, pos, rest, caps⟩]
    | c :: _ => if c = '\n' then [⟨prev, pos, rest, caps⟩] else []

/-- The match Python's engine produces at this position, if any. -/
def firstMatch (subj : Str) (re : Re) (prev : Option Char) (pos : Nat) (rest : Str) :
    Option MSt :=
  (Re.mtchAll subj re prev pos rest []).head?

/-! ## Pattern-building helpers -/

def lit (s : Str) : Re := .str s

def litS (s : String) : Re := .str s.data

/-- `r+` as `r · r*` (equivalent preference order for the single-character
bodies used here). -/
def rep1 (r : Re) : Re := .seq r (.star r)

def wch : Re := .cls isWordChar
/-- `\w+` -/
def wplus : Re := rep1 wch
/-- `\s` -/
def sch : Re := .cls isSpaceChar
/-- `\s*` -/
def sstar : Re := .star sch
/-- `\s+` -/
def splus : Re := rep1 sch
/-- `\d+` -/
def dplus : Re := rep1 (.cls isDigitChar)
/-- `.` (not newline) -/
def dotCh : Re := .cls fun c => c ≠ '\n'
/-- `[^x]` for one excluded char (also matches newline, as in Python). -/
def nc (x : Char) : Re := .cls fun c => c ≠ x
/-- `[^x]*` -/
def ncStar (x : Char) : Re := .star (nc x)
/-- `[^x]+` -/
def ncPlus (x : Char) : Re := rep1 (nc x)

def seqL : List Re → Re
  | [] => .eps
  | [r] => r
  | r :: t => .seq r (seqL t)

/-! ## Substitution templates and drivers -/

/-- A piece of a `re.sub` replacement template: literal text or `\i`. -/
inductive TP where
  | l (s : Str) : TP
  | g (i : Nat) : TP

abbrev Tmpl := List TP

/-- Render a template against the subject and captures.  A reference to an
unset group makes Python's `re.sub` raise, hence `Option`. -/
def render (subj : Str) (caps : Caps) : Tmpl → Option Str
  | [] => some []
  | .l s :: t => (render subj caps t).map fun r => s ++ r
  | .g i :: t => do
    let (st, ln) ← capLookup caps i
    let r ← render subj caps t
    some ((subj.drop st).take ln ++ r)

/-- The group value seen by a replacement lambda (`m.group(i)`): `none`
for an unset group. -/
def groupVal (subj : Str) (caps : Caps) (i : Nat) : Option Str :=
  (capLookup caps i).map fun p => (subj.drop p.1).take p.2

/-- `re.sub(re, repl, subj)` with a stateful, possibly-raising replacement
function (the converter installs lambdas that mutate `self.renamed_vars`
and that can in principle raise).  Scanning is leftmost, non-overlapping;
an empty match substitutes and then advances one character, as Python
does.  Fuel is called with `rest.length + 1`; every step consumes at least
one character or ends the recursion, so the `0` case is unreachable. -/
def subFuel {σ : Type} (re : Re) (repl : Caps → σ → Option (Str × σ)) (subj : Str) :
    Nat → Option Char → Nat → Str → σ → Option (Str × σ)
  | 0, _, _, rest, st => some (rest, st)
  | fuel + 1, prev, pos, rest, st =>
    match firstMatch subj re prev pos rest with
    | some m =>
      if m.rest.length < rest.length then do
        let (t, st') ← repl m.caps st
        let (out, st'') ← subFuel re repl subj fuel m.prev m.pos m.rest st'
        some (t ++ out, st'')
      else do
        let (t, st') ← repl m.caps st
        match rest with
        | [] => some (t, st')
        | c :: rest' => do
          let (out, st'') ← subFuel re repl subj fuel (some c) (pos + 1) rest' st'
          some (t ++ c :: out, st'')
    | none =>
      match rest with
      | [] => some ([], st)
      | c :: rest' => do
        let (out, st') ← subFuel re repl subj fuel (some c) (pos + 1) rest' st
        some (c :: out, st')

/-- `re.sub` with a stateful replacement. -/
def subSt {σ : Type} (re : Re) (repl : Caps → σ → Option (Str × σ)) (s : Str) (st : σ) :
    Option (Str × σ) :=
  subFuel re repl s (s.length + 1) none 0 s st

/-- `re.sub` with a template replacement. -/
def subT (re : Re) (tmpl : Tmpl) (s : Str) : Option Str :=
  (subSt re (fun caps u => (render s caps tmpl).map fun t => (t, u)) s ()).map (·.1)

/-- `re.sub` with a pure (non-raising, stateless) replacement function. -/
def subF (re : Re) (f : Caps → Str → Str) (s : Str) : Option Str :=
  (subSt re (fun caps u => some (f caps s, u)) s ()).map (·.1)

/-- `re.search(re, s) is not None`. -/
def reSearchFuel (re : Re) (subj : Str) : Nat → Option Char → Nat → Str → Bool
  | 0, _, _, _ => false
  | fuel + 1, prev, pos, rest =>
    match firstMatch subj re prev pos rest with
    | some _ => true
    | none =>
      match rest with
      | [] => false
      | c :: rest' => reSearchFuel re subj fuel (some c) (pos + 1) rest'

def reSearch (re : Re) (s : Str) : Bool := reSearchFuel re s (s.length + 1) none 0 s

/-! ## Fixed tables of the converter (`JSPythonConverter.__init__`) -/

/-- `self.type_map` (source lines 21–40), an insertion-ordered dict. -/
def type_map : List (Str × Str) := [
  (s2l ("string"), s2l ("str")),
  (s2l ("number"), s2l ("float")),
  (s2l ("boolean"), s2l ("bool")),
  (s2l ("any"), s2l ("Any")),
  (s2l ("void"), s2l ("None")),
  (s2l ("undefined"), s2l ("None")),
  (s2l ("null"), s2l ("None")),
  (s2l ("string[]"), s2l ("List[str]")),
  (s2l ("number[]"), s2l ("List[float]")),
  (s2l ("boolean[]"), s2l ("List[bool]")),
  (s2l ("any[]"), s2l ("List[Any]")),
  (s2l ("Array<string>"), s2l ("List[str]")),
  (s2l ("Array<number>"), s2l ("List[float]")),
  (s2l ("Array<boolean>"), s2l ("List[bool]")),
  (s2l ("Array<any>"), s2l ("List[Any]")),
  (s2l ("Promise"), s2l ("Awaitable")),
  (s2l ("Object"), s2l ("Dict[str, Any]")),
  (s2l ("Record<string, any>"), s2l ("Dict[str, Any]"))]

/-- `self.method_map` (source lines 43–73); iteration order is the
insertion order. -/
def method_map : List (Str × Str) := [
  (s2l ("console.log"), s2l ("print")),
  (s2l ("console.error"), s2l ("print")),
  (s2l ("console.warn"), s2l ("print")),
  (s2l ("Math.floor"), s2l ("int")),
  (s2l ("Math.ceil"), s2l ("math.ceil")),
  (s2l ("Math.round"), s2l ("round")),
  (s2l ("Math.abs"), s2l ("abs")),
  (s2l ("Math.max"), s2l ("max")),
  (s2l ("Math.min"), s2l ("min")),
  (s2l ("Math.random"), s2l ("random.random")),
  (s2l ("JSON.stringify"), s2l ("json.dumps")),
  (s2l ("JSON.parse"), s2l ("json.loads")),
  (s2l ("parseInt"), s2l ("int")),
  (s2l ("parseFloat"), s2l ("float")),
  (s2l ("toString"), s2l ("str")),
  (s2l ("length"), s2l ("len")),
  (s2l ("push"), s2l ("append")),
  (s2l ("pop"), s2l ("pop")),
  (s2l ("shift"), s2l ("pop(0)")),
  (s2l ("indexOf"), s2l ("index")),
  (s2l ("includes"), s2l ("in")),
  (s2l ("toLowerCase"), s2l ("lower")),
  (s2l ("toUpperCase"), s2l ("upper")),
  (s2l ("trim"), s2l ("strip")),
  (s2l ("split"), s2l ("split")),
  (s2l ("join"), s2l ("join")),
  (s2l ("replace"), s2l ("replace")),
  (s2l ("slice"), s2l ("slice")),
  (s2l ("substring"), s2l ("slice"))]

/-- `self.python_keywords` (source lines 76–86); only membership is used. -/
def python_keywords : List Str := [
  s2l ("class"), s2l ("def"), s2l ("return"), s2l ("if"), s2l ("else"),
  s2l ("elif"), s2l ("for"), s2l ("while"), s2l ("import"), s2l ("from"),
  s2l ("as"), s2l ("try"), s2l ("except"), s2l ("finally"), s2l ("with"),
  s2l ("lambda"), s2l ("pass"), s2l ("break"), s2l ("continue"),
  s2l ("global"), s2l ("nonlocal"), s2l ("assert"), s2l ("del"),
  s2l ("in"), s2l ("is"), s2l ("not"), s2l ("or"), s2l ("and"),
  s2l ("None"), s2l ("True"), s2l ("False"), s2l ("yield"),
  s2l ("async"), s2l ("await"),
  s2l ("max"), s2l ("min"), s2l ("sum"), s2l ("len"), s2l ("list"),
  s2l ("dict"), s2l ("set"), s2l ("str"), s2l ("int"), s2l ("float"),
  s2l ("bool"), s2l ("type"), s2l ("print"), s2l ("input"), s2l ("open"),
  s2l ("range"), s2l ("zip"), s2l ("map"), s2l ("filter"),
  s2l ("sorted"), s2l ("reversed")]

/-- The rename table `self.renamed_vars`: an insertion-ordered dict from
original name to collision-safe name. -/
abbrev RTable := List (Str × Str)

def rtLookup (ρ : RTable) (k : Str) : Option Str :=
  (ρ.find? fun e => e.1 = k).map (·.2)

/-- `self.renamed_vars[name] = safe_name` (update in place or append). -/
def rtInsert : RTable → Str → Str → RTable
  | [], k, v => [(k, v)]
  | (k', v') :: t, k, v =>
    if k' = k then (k, v) :: t else (k', v') :: rtInsert t k v

/-! ## The regex patterns of the converter, transcribed one-to-one -/

/-- `'` or `"` — the class `['"]`. -/
def quoteCh : Re := .cls fun c => (c = '\'' || c = '"')
/-- `[^'"]*` -/
def nQuoteStar : Re := .star (.cls fun c => !(c = '\'' || c = '"'))
/-- the backtick character -/
def btick : Char := Char.ofNat 96
/-- the opening-brace character -/
def obr : Char := Char.ofNat 123
/-- the closing-brace character -/
def cbr : Char := Char.ofNat 125

/-- `@\w+\([^\)]*\)\s*\n` (`_extract_decorators`, line 138). -/
def patDecorator : Re :=
  seqL [.ch '@', wplus, .ch '(', ncStar (')'), .ch ')', sstar, .ch '\n']

/-- `import\s+\{([^}]+)\}\s+from\s+['"]([^'"]*)['"]\s*;?` (line 147). -/
def patImportNamed : Re :=
  seqL [litS ("import"), splus, .ch obr, .group 1 (ncPlus cbr), .ch cbr,
    splus, litS ("from"), splus, quoteCh, .group 2 nQuoteStar, quoteCh,
    sstar, .opt (.ch ';')]

/-- `import\s+(\w+)\s+from\s+['"]([^'"]*)['"]\s*;?` (line 154). -/
def patImportDefault : Re :=
  seqL [litS ("import"), splus, .group 1 wplus, splus, litS ("from"), splus,
    quoteCh, .group 2 nQuoteStar, quoteCh, sstar, .opt (.ch ';')]

/-- `const\s+(\w+)\s*=\s*require\(['"]([^'"]*)['"]\)\s*;?` (line 161). -/
def patRequire : Re :=
  seqL [litS ("const"), splus, .group 1 wplus, sstar, .ch '=', sstar,
    litS ("require("), quoteCh, .group 2 nQuoteStar, quoteCh, .ch ')',
    sstar, .opt (.ch ';')]

/-- `const\s+(\w+)\s*=\s*\(([^)]*)\)\s*=>\s*\{` (line 172). -/
def patArrowFn : Re :=
  seqL [litS ("const"), splus, .group 1 wplus, sstar, .ch '=', sstar,
    .ch '(', .group 2 (ncStar (')')), .ch ')', sstar, litS ("=>"), sstar,
    .ch obr]

/-- `const\s+(\w+)\s*=\s*async\s*\(([^)]*)\)\s*=>\s*\{` (line 179). -/
def patAsyncArrowFn : Re :=
  seqL [litS ("const"), splus, .group 1 wplus, sstar, .ch '=', sstar,
    litS ("async"), sstar, .ch '(', .group 2 (ncStar (')')), .ch ')',
    sstar, litS ("=>"), sstar, .ch obr]

/-- `function\s+(\w+)\s*\(([^)]*)\)\s*(?::\s*([^\{]+))?\s*\{` (line 193). -/
def patFnDecl : Re :=
  seqL [litS ("function"), splus, .group 1 wplus, sstar, .ch '(',
    .group 2 (ncStar (')')), .ch ')', sstar,
    .opt (seqL [.ch ':', sstar, .group 3 (ncPlus obr)]), sstar, .ch obr]

/-- `async\s+function\s+(\w+)\s*\(([^)]*)\)\s*(?::\s*([^\{]+))?\s*\{`
(line 200). -/
def patAsyncFnDecl : Re := seqL [litS ("async"), splus, patFnDecl]

/-- `class\s+(\w+)\s*(?:extends\s+(\w+))?\s*\{` (line 266). -/
def patClassDecl : Re :=
  seqL [litS ("class"), splus, .group 1 wplus, sstar,
    .opt (seqL [litS ("extends"), splus, .group 2 wplus]), sstar, .ch obr]

/-- `constructor\s*\(([^)]*)\)\s*\{` (line 273). -/
def patCtor : Re :=
  seqL [litS ("constructor"), sstar, .ch '(', .group 1 (ncStar (')')),
    .ch ')', sstar, .ch obr]

/-- `\s*=>\s*` (line 433). -/
def patArrowSpace : Re := seqL [sstar, litS ("=>"), sstar]

/-- `(\w+)\.reduce\(\((\w+),\s*(\w+)\) => ([^,]+),\s*([^)]+)\)` (line 440). -/
def patReduce : Re :=
  seqL [.group 1 wplus, litS (".reduce(("), .group 2 wplus, .ch ',', sstar,
    .group 3 wplus, litS (") => "), .group 4 (ncPlus (',')), .ch ',', sstar,
    .group 5 (ncPlus (')')), .ch ')']

/-- `(\w+)\.map\(\((\w+)\) => ([^)]+)\)` (line 447). -/
def patMapParen : Re :=
  seqL [.group 1 wplus, litS (".map(("), .group 2 wplus, litS (") => "),
    .group 3 (ncPlus (')')), .ch ')']

/-- `(\w+)\.map\((\w+) => ([^)]+)\)` (line 452). -/
def patMapBare : Re :=
  seqL [.group 1 wplus, litS (".map("), .group 2 wplus, litS (" => "),
    .group 3 (ncPlus (')')), .ch ')']

/-- `(\w+)\.filter\(\((\w+)\) => ([^)]+)\)` (line 459). -/
def patFilterParen : Re :=
  seqL [.group 1 wplus, litS (".filter(("), .group 2 wplus, litS (") => "),
    .group 3 (ncPlus (')')), .ch ')']

/-- `(\w+)\.filter\((\w+) => ([^)]+)\)` (line 464). -/
def patFilterBare : Re :=
  seqL [.group 1 wplus, litS (".filter("), .group 2 wplus, litS (" => "),
    .group 3 (ncPlus (')')), .ch ')']

/-- `(\w+)\.forEach\(\((\w+)\) => \{` (line 471). -/
def patForEachParen : Re :=
  seqL [.group 1 wplus, litS (".forEach(("), .group 2 wplus,
    litS (") => "), .ch obr]

/-- `(\w+)\.forEach\((\w+) => \{` (line 476). -/
def patForEachBare : Re :=
  seqL [.group 1 wplus, litS (".forEach("), .group 2 wplus, litS (" => "),
    .ch obr]

/-- `(\w+)\.find\(\((\w+)\) => ([^)]+)\)` (line 483). -/
def patFindParen : Re :=
  seqL [.group 1 wplus, litS (".find(("), .group 2 wplus, litS (") => "),
    .group 3 (ncPlus (')')), .ch ')']

/-- `(\w+)\.find\((\w+) => ([^)]+)\)` (line 488). -/
def patFindBare : Re :=
  seqL [.group 1 wplus, litS (".find("), .group 2 wplus, litS (" => "),
    .group 3 (ncPlus (')')), .ch ')']

/-- `\b(const|let|var)\s+` (line 288). -/
def patDeclKeyword : Re :=
  seqL [.wordB, .group 1 (.alt (litS ("const")) (.alt (litS ("let")) (litS ("var")))), splus]

/-- `(\w+)\s*:\s*([^=\n]+)\s*=` (line 292). -/
def patTypedDecl : Re :=
  seqL [.group 1 wplus, sstar, .ch ':', sstar,
    .group 2 (rep1 (.cls fun c => !(c = '=' || c = '\n'))), sstar, .ch '=']

/-- `\b(\w+)\s*=\s*(?!=|>)` (line 300). -/
def patUntypedDecl : Re :=
  seqL [.wordB, .group 1 wplus, sstar, .ch '=', sstar,
    .nla (.alt (.ch '=') (.ch '>'))]

/-- `\b{old}_var\s*=\s*{old}\(` (line 310). -/
def patProtect (old : Str) : Re :=
  seqL [.wordB, lit old, litS ("_var"), sstar, .ch '=', sstar, lit old, .ch '(']

/-- `\b{old}\b(?!\s*=)(?!__PROTECTED__)` (line 317). -/
def patUsage (old : Str) : Re :=
  seqL [.wordB, lit old, .wordB, .nla (seqL [sstar, .ch '=']),
    .nla (litS ("__PROTECTED__"))]

/-- `for\s*\(\s*(?:const|let|var)?\s*(\w+)\s+of\s+([^)]+)\)\s*\{` (line 348). -/
def patForOf : Re :=
  seqL [litS ("for"), sstar, .ch '(', sstar,
    .opt (.alt (litS ("const")) (.alt (litS ("let")) (litS ("var")))), sstar,
    .group 1 wplus, splus, litS ("of"), splus, .group 2 (ncPlus (')')),
    .ch ')', sstar, .ch obr]

/-- `for\s*\(\s*(?:const|let|var)?\s*(\w+)\s+in\s+([^)]+)\)\s*\{` (line 355). -/
def patForIn : Re :=
  seqL [litS ("for"), sstar, .ch '(', sstar,
    .opt (.alt (litS ("const")) (.alt (litS ("let")) (litS ("var")))), sstar,
    .group 1 wplus, splus, litS ("in"), splus, .group 2 (ncPlus (')')),
    .ch ')', sstar, .ch obr]

/-- `for\s*\(\s*(?:let|var)?\s*(\w+)\s*=\s*(\d+)\s*;\s*\1\s*<\s*([^;]+)\s*;\s*\1\+\+\s*\)\s*\{`
(line 362). -/
def patForClassic : Re :=
  seqL [litS ("for"), sstar, .ch '(', sstar,
    .opt (.alt (litS ("let")) (litS ("var"))), sstar, .group 1 wplus, sstar,
    .ch '=', sstar, .group 2 dplus, sstar, .ch ';', sstar, .backref 1,
    sstar, .ch '<', sstar, .group 3 (ncPlus (';')), sstar, .ch ';', sstar,
    .backref 1, litS ("++"), sstar, .ch ')', sstar, .ch obr]

/-- `if\s*\(([^)]+)\)\s*\{` (line 369). -/
def patIf : Re :=
  seqL [litS ("if"), sstar, .ch '(', .group 1 (ncPlus (')')), .ch ')',
    sstar, .ch obr]

/-- `}\s*else\s+if\s*\(([^)]+)\)\s*\{` (line 376). -/
def patElseIf : Re :=
  seqL [.ch cbr, sstar, litS ("else"), splus, litS ("if"), sstar, .ch '(',
    .group 1 (ncPlus (')')), .ch ')', sstar, .ch obr]

/-- `}\s*else\s*\{` (line 383). -/
def patElse : Re := seqL [.ch cbr, sstar, litS ("else"), sstar, .ch obr]

/-- `while\s*\(([^)]+)\)\s*\{` (line 390). -/
def patWhile : Re :=
  seqL [litS ("while"), sstar, .ch '(', .group 1 (ncPlus (')')), .ch ')',
    sstar, .ch obr]

/-- `try\s*\{` (line 397). -/
def patTry : Re := seqL [litS ("try"), sstar, .ch obr]

/-- `}\s*catch\s*\((\w+)\)\s*\{` (line 403). -/
def patCatch : Re :=
  seqL [.ch cbr, sstar, litS ("catch"), sstar, .ch '(', .group 1 wplus,
    .ch ')', sstar, .ch obr]

/-- `switch\s*\(([^)]+)\)\s*\{` (line 411). -/
def patSwitch : Re :=
  seqL [litS ("switch"), sstar, .ch '(', .group 1 (ncPlus (')')), .ch ')',
    sstar, .ch obr]

/-- `case\s+([^:]+):` (line 417). -/
def patCase : Re := seqL [litS ("case"), splus, .group 1 (ncPlus (':')), .ch ':']

/-- `default:` (line 423). -/
def patDefault : Re := litS ("default:")

/-- `return\s*\{([^}]+)\}` (line 499). -/
def patReturnObj : Re :=
  seqL [litS ("return"), sstar, .ch obr, .group 1 (ncPlus cbr), .ch cbr]

/-- `=\s*\{([^}]+)\}` (line 506). -/
def patAssignObj : Re :=
  seqL [.ch '=', sstar, .ch obr, .group 1 (ncPlus cbr), .ch cbr]

/-- `\.\.\.(\w+)` (line 550). -/
def patSpread : Re := seqL [litS ("..."), .group 1 wplus]

/-- `(\w+)\.length\b` (line 557). -/
def patLength : Re := seqL [.group 1 wplus, litS (".length"), .wordB]

/-- `\b{re.escape(js_method)}_var\b` (line 565). -/
def patMethodVar (js : Str) : Re := seqL [.wordB, lit js, litS ("_var"), .wordB]

/-- `\b{re.escape(js_method)}\b` (line 566). -/
def patMethod (js : Str) : Re := seqL [.wordB, lit js, .wordB]

/-- `(\w+)\.toLowerCase\(\)` (line 570). -/
def patToLower : Re := seqL [.group 1 wplus, litS (".toLowerCase()")]

/-- `(\w+)\.toUpperCase\(\)` (line 576). -/
def patToUpper : Re := seqL [.group 1 wplus, litS (".toUpperCase()")]

/-- `(\w+)\s*===\s*undefined` (line 583). -/
def patEqUndef : Re :=
  seqL [.group 1 wplus, sstar, litS ("==="), sstar, litS ("undefined")]

/-- `(\w+)\s*===\s*null` (line 589). -/
def patEqNull : Re :=
  seqL [.group 1 wplus, sstar, litS ("==="), sstar, litS ("null")]

/-- `(\w+)\s*!==\s*undefined` (line 595). -/
def patNeqUndef : Re :=
  seqL [.group 1 wplus, sstar, litS ("!=="), sstar, litS ("undefined")]

/-- `(\w+)\s*!==\s*null` (line 601). -/
def patNeqNull : Re :=
  seqL [.group 1 wplus, sstar, litS ("!=="), sstar, litS ("null")]

/-- `!\s*(\w+)` (line 619). -/
def patBang : Re := seqL [.ch '!', sstar, .group 1 wplus]

/-- `(\w+)\+\+` (line 622). -/
def patIncr : Re := seqL [.group 1 wplus, litS ("++")]

/-- `(\w+)--` (line 623). -/
def patDecr : Re := seqL [.group 1 wplus, litS ("--")]

/-- `` `([^`]*)\$\{([^}]+)\}([^`]*)` `` (line 627). -/
def patTemplateLit : Re :=
  seqL [.ch btick, .group 1 (ncStar btick), litS ("$"), .ch obr,
    .group 2 (ncPlus cbr), .ch cbr, .group 3 (ncStar btick), .ch btick]

/-- `` `([^`]*)` `` (line 633). -/
def patBacktickStr : Re := seqL [.ch btick, .group 1 (ncStar btick), .ch btick]

/-- `//\s*(.*)` (lines 640 and 700). -/
def patComment : Re := seqL [litS ("//"), sstar, .group 1 (.star dotCh)]

/-- `(if|for|while)\s+(.+)\s*\n` (line 665). -/
def patColonFix : Re :=
  seqL [.group 1 (.alt (litS ("if")) (.alt (litS ("for")) (litS ("while")))),
    splus, .group 2 (rep1 dotCh), sstar, .ch '\n']

/-- `(if|for|while)\s+([^:]+)\s*(?<!\:)$` with `re.MULTILINE` (line 703). -/
def patPostColon : Re :=
  seqL [.group 1 (.alt (litS ("if")) (.alt (litS ("for")) (litS ("while")))),
    splus, .group 2 (ncPlus (':')), sstar, .nlbChar ':', .eolM]

/-- `(\w+):\s*\n\s*\n` (line 706). -/
def patPassFix : Re :=
  seqL [.group 1 wplus, .ch ':', sstar, .ch '\n', sstar, .ch '\n']

/-! ## `_convert_type` (lines 228–260) -/

/-- `_convert_type`, fuelled: all recursive calls from the source recurse
on strictly shorter strings, so fuel `ts.length + 1` always suffices
(`convert_type_isSome` below); fuel `0` stands for the unreachable
exhaustion case. -/
def convert_type_fuel : Nat → Str → Option Str
  | 0, _ => none
  | fuel + 1, ts0 =>
    if ts0 = [] then some (s2l ("Any"))
    else
      let ts := pyStrip ts0
      if hasChar ts '|' then
        (optMapM (fun t =>
            convert_type_fuel fuel (pyStrip t)) (splitOnChar '|' ts)).map fun parts =>
          s2l ("Union[") ++ joinStr (s2l (", ")) parts ++ s2l ("]")
      else if (type_map.find? fun e => e.1 = ts).isSome then
        ((type_map.find? fun e => e.1 = ts).map (·.2))
      else if hasChar ts '<' ∧ hasChar ts '>' then do
        let i ← idxOf? '<' ts
        let j ← rIdxOf? '>' ts
        let base_type := ts.take i
        let inner_type := (ts.drop (i + 1)).take (j - (i + 1))
        if base_type = s2l ("Array") then
          (convert_type_fuel fuel inner_type).map fun x =>
            s2l ("List[") ++ x ++ s2l ("]")
        else if base_type = s2l ("Promise") then
          (convert_type_fuel fuel inner_type).map fun x =>
            s2l ("Awaitable[") ++ x ++ s2l ("]")
        else if base_type = s2l ("Record") then
          match splitOnce ',' inner_type with
          | some (k, v) => do
            let pk ← convert_type_fuel fuel k
            let pv ← convert_type_fuel fuel v
            some (s2l ("Dict[") ++ pk ++ s2l (", ") ++ pv ++ s2l ("]"))
          | none => some ts
        else some ts
      else some ts

def convert_type (ts : Str) : Option Str := convert_type_fuel (ts.length + 1) ts

/-- `_convert_params` (lines 207–226). -/
def convert_params (params : Str) : Option Str :=
  if pyStrip params = [] then some params
  else
    (optMapM (fun param => do
        let param := pyStrip param
        if hasChar param ':' then do
          let (name, ts_type) ← splitOnce ':' param
          let name := pyStrip name
          let ts_type := pyStrip ts_type
          let py_type ← convert_type ts_type
          some (name ++ s2l (": ") ++ py_type)
        else some param) (splitOnChar ',' params)).map
      (joinStr (s2l (", ")))

/-- `_safe_var_name` (lines 338–342). -/
def safe_var_name (name : Str) : Str :=
  if python_keywords.any fun k => k = name then name ++ s2l ("_var") else name

/-- `_handle_var_declaration` (lines 327–336): returns the replacement
text and the updated rename table. -/
def handle_var_declaration (ρ : RTable) (name : Str) (type_str : Option Str)
    (typed : Bool) : Option (Str × RTable) := do
  let safe_name := safe_var_name name
  let ρ' := if safe_name ≠ name then rtInsert ρ name safe_name else ρ
  match typed, type_str with
  | true, some ts =>
    if ts ≠ [] then do
      let pt ← convert_type ts
      some (safe_name ++ s2l (": ") ++ pt ++ s2l (" ="), ρ')
    else some (safe_name ++ s2l (" = "), ρ')
  | _, _ => some (safe_name ++ s2l (" = "), ρ')

/-! ## The passes of `convert` -/

/-- `_convert_imports` (lines 143–166). -/
def convert_imports (code : Str) : Option Str := do
  let code ← (subSt patImportNamed (fun caps _ => do
      let g1 ← groupVal code caps 1
      let g2 ← groupVal code caps 2
      some (s2l ("from ") ++ replaceAll (s2l ("/")) (s2l (".")) g2 ++
        s2l (" import ") ++ g1, ())) code ()).map (·.1)
  let code ← (subSt patImportDefault (fun caps _ => do
      let g1 ← groupVal code caps 1
      let g2 ← groupVal code caps 2
      some (s2l ("import ") ++ replaceAll (s2l ("/")) (s2l (".")) g2 ++
        s2l (" as ") ++ g1, ())) code ()).map (·.1)
  let code ← (subSt patRequire (fun caps _ => do
      let g1 ← groupVal code caps 1
      let g2 ← groupVal code caps 2
      some (s2l ("import ") ++ replaceAll (s2l ("/")) (s2l (".")) g2 ++
        s2l (" as ") ++ g1, ())) code ()).map (·.1)
  some code

/-- `self._convert_type(match.group(3)) if match.group(3) else 'Any'`
(lines 188 and 201): group 3 may be absent or empty. -/
def fn_return_type (code : Str) (caps : Caps) : Option Str :=
  match groupVal code caps 3 with
  | some g3 => if g3 ≠ [] then convert_type g3 else some (s2l ("Any"))
  | none => some (s2l ("Any"))

/-- the body of `convert_function` (lines 185–190), shared by the async
variant (line 201). -/
def fn_decl_repl (kw : Str) (code : Str) (caps : Caps) : Option Str := do
  let func_name ← groupVal code caps 1
  let params0 ← groupVal code caps 2
  let params ← convert_params params0
  let return_type ← fn_return_type code caps
  some (kw ++ func_name ++ s2l ("(") ++ params ++ s2l (") -> ") ++
    return_type ++ s2l (":"))

/-- `_convert_functions` (lines 168–205). -/
def convert_functions (code : Str) : Option Str := do
  let code ← subT patArrowFn
    [.l (s2l ("def ")), .g 1, .l (s2l ("(")), .g 2, .l (s2l ("):"))] code
  let code ← subT patAsyncArrowFn
    [.l (s2l ("async def ")), .g 1, .l (s2l ("(")), .g 2, .l (s2l ("):"))] code
  let code ← (subSt patFnDecl (fun caps _ => do
      let r ← fn_decl_repl (s2l ("def ")) code caps
      some (r ++ s2l ("\n    __INDENT__"), ())) code ()).map (·.1)
  let code ← (subSt patAsyncFnDecl (fun caps _ => do
      let r ← fn_decl_repl (s2l ("async def ")) code caps
      some (r, ())) code ()).map (·.1)
  some code

/-- `_convert_classes` (lines 262–280). -/
def convert_classes (code : Str) : Option Str := do
  let code ← (subSt patClassDecl (fun caps _ => do
      let g1 ← groupVal code caps 1
      let parent :=
        match groupVal code caps 2 with
        | some g2 => if g2 ≠ [] then g2 else s2l ("object")
        | none => s2l ("object")
      some (s2l ("class ") ++ g1 ++ s2l ("(") ++ parent ++ s2l ("):"), ()))
    code ()).map (·.1)
  let code ← (subSt patCtor (fun caps _ => do
      let g1 ← groupVal code caps 1
      some (s2l ("def __init__(self, ") ++ g1 ++ s2l ("):"), ())) code ()).map (·.1)
  some code

/-- `_convert_array_methods` (lines 430–493). -/
def convert_array_methods (code : Str) : Option Str := do
  let code ← subT patArrowSpace [.l (s2l (" => "))] code
  let code := replaceAll (s2l (";")) [] code
  let code ← subT patReduce
    [.l (s2l ("functools.reduce(lambda ")), .g 2, .l (s2l (", ")), .g 3,
     .l (s2l (": ")), .g 4, .l (s2l (", ")), .g 1, .l (s2l (", ")), .g 5,
     .l (s2l (")"))] code
  let code ← subT patMapParen
    [.l (s2l ("[")), .g 3, .l (s2l (" for ")), .g 2, .l (s2l (" in ")),
     .g 1, .l (s2l ("]"))] code
  let code ← subT patMapBare
    [.l (s2l ("[")), .g 3, .l (s2l (" for ")), .g 2, .l (s2l (" in ")),
     .g 1, .l (s2l ("]"))] code
  let code ← subT patFilterParen
    [.l (s2l ("[")), .g 2, .l (s2l (" for ")), .g 2, .l (s2l (" in ")),
     .g 1, .l (s2l (" if ")), .g 3, .l (s2l ("]"))] code
  let code ← subT patFilterBare
    [.l (s2l ("[")), .g 2, .l (s2l (" for ")), .g 2, .l (s2l (" in ")),
     .g 1, .l (s2l (" if ")), .g 3, .l (s2l ("]"))] code
  let code ← subT patForEachParen
    [.l (s2l ("for ")), .g 2, .l (s2l (" in ")), .g 1, .l (s2l (":"))] code
  let code ← subT patForEachBare
    [.l (s2l ("for ")), .g 2, .l (s2l (" in ")), .g 1, .l (s2l (":"))] code
  let code ← subT patFindParen
    [.l (s2l ("next((")), .g 2, .l (s2l (" for ")), .g 2, .l (s2l (" in ")),
     .g 1, .l (s2l (" if ")), .g 3, .l (s2l ("), None)"))] code
  let code ← subT patFindBare
    [.l (s2l ("next((")), .g 2, .l (s2l (" for ")), .g 2, .l (s2l (" in ")),
     .g 1, .l (s2l (" if ")), .g 3, .l (s2l ("), None)"))] code
  some code

/-- `_convert_variables` (lines 282–325).  The incoming table `ρ_init`
(the state `self.renamed_vars` holds when the pass starts) is discarded
by the `self.renamed_vars = {}` reset on line 285 before it is ever
read; the pass returns the freshly built table for the later
object-literal pass. -/
def convert_variables (ρ_init : RTable) (code : Str) : Option (Str × RTable) := do
  let ρ : RTable := []
  let _ := ρ_init
  let code ← subT patDeclKeyword [] code
  let (code, ρ) ← subSt patTypedDecl (fun caps ρ => do
      let g1 ← groupVal code caps 1
      let g2 ← groupVal code caps 2
      handle_var_declaration ρ g1 (some g2) true) code ρ
  let (code, ρ) ← subSt patUntypedDecl (fun caps ρ => do
      let g1 ← groupVal code caps 1
      handle_var_declaration ρ g1 none false) code ρ
  let code ← ρ.foldlM (fun code e => do
      let old_name := e.1
      let new_name := e.2
      let code ← subT (patProtect old_name)
        [.l (old_name ++ s2l ("_var = ") ++ old_name ++ s2l ("__PROTECTED__("))] code
      let code ← subT (patUsage old_name) [.l new_name] code
      some (replaceAll (old_name ++ s2l ("__PROTECTED__")) old_name code)) code
  some (code, ρ)

/-- `_convert_control_structures` (lines 344–428). -/
def convert_control_structures (code : Str) : Option Str := do
  let code ← subT patForOf
    [.l (s2l ("for ")), .g 1, .l (s2l (" in ")), .g 2, .l (s2l (":"))] code
  let code ← subT patForIn
    [.l (s2l ("for ")), .g 1, .l (s2l (" in ")), .g 2, .l (s2l (":"))] code
  let code ← subT patForClassic
    [.l (s2l ("for ")), .g 1, .l (s2l (" in range(")), .g 2, .l (s2l (", ")),
     .g 3, .l (s2l ("):"))] code
  let code ← subT patIf [.l (s2l ("if ")), .g 1, .l (s2l (":"))] code
  let code ← subT patElseIf [.l (s2l ("elif ")), .g 1, .l (s2l (":"))] code
  let code ← subT patElse [.l (s2l ("else:"))] code
  let code ← subT patWhile [.l (s2l ("while ")), .g 1, .l (s2l (":"))] code
  let code ← subT patTry [.l (s2l ("try:"))] code
  let code ← subT patCatch
    [.l (s2l ("except Exception as ")), .g 1, .l (s2l (":"))] code
  let code ← subT patSwitch
    [.l (s2l ("_switch_var = ")), .g 1, .l (s2l ("\nif False:  # switch"))] code
  let code ← subT patCase
    [.l (s2l ("elif _switch_var == ")), .g 1, .l (s2l (":"))] code
  let code ← subT patDefault [.l (s2l ("else:"))] code
  some code

/-- `_convert_object_literal` (lines 513–544). -/
def convert_object_literal (ρ : RTable) (content : Str) : Option Str := do
  let lines := splitOnChar '\n' (pyStrip content)
  let pairs ← lines.foldlM (fun pairs line => do
      let line := pyStrip line
      if line = [] ∨ line = [','] then some pairs
      else
        let line := if endsWith line [','] then line.dropLast else line
        if hasChar line ':' then do
          let (key, value) ← splitOnce ':' line
          let key := pyStrip key
          let value := pyStrip value
          let key :=
            if !(startsWith key ['"'] ∨ startsWith key ['\'']) then
              '"' :: key ++ ['"']
            else key
          let value := match rtLookup ρ value with
            | some v => v
            | none => value
          some (pairs ++ [key ++ s2l (": ") ++ value])
        else some pairs) []
  some ([obr] ++ joinStr (s2l (", ")) pairs ++ [cbr])

/-- `_convert_objects` (lines 495–511). -/
def convert_objects (ρ : RTable) (code : Str) : Option Str := do
  let code ← (subSt patReturnObj (fun caps _ => do
      let g1 ← groupVal code caps 1
      let d ← convert_object_literal ρ g1
      some (s2l ("return ") ++ d, ())) code ()).map (·.1)
  let code ← (subSt patAssignObj (fun caps _ => do
      let g1 ← groupVal code caps 1
      let d ← convert_object_literal ρ g1
      some (s2l ("= ") ++ d, ())) code ()).map (·.1)
  some code

/-- `_convert_common_methods` (lines 546–606). -/
def convert_common_methods (code : Str) : Option Str := do
  let code ← subT patSpread [.l (s2l ("*")), .g 1] code
  let code ← subT patLength [.l (s2l ("len(")), .g 1, .l (s2l (")"))] code
  let code ← method_map.foldlM (fun code e =>
      if !(reSearch (patMethodVar e.1) code) then
        subT (patMethod e.1) [.l e.2] code
      else some code) code
  let code ← subT patToLower [.g 1, .l (s2l (".lower()"))] code
  let code ← subT patToUpper [.g 1, .l (s2l (".upper()"))] code
  let code ← subT patEqUndef [.g 1, .l (s2l (" is None"))] code
  let code ← subT patEqNull [.g 1, .l (s2l (" is None"))] code
  let code ← subT patNeqUndef [.g 1, .l (s2l (" is not None"))] code
  let code ← subT patNeqNull [.g 1, .l (s2l (" is not None"))] code
  some code

/-- `_convert_operators` (lines 608–635). -/
def convert_operators (code : Str) : Option Str := do
  let code := replaceAll (s2l ("===")) (s2l ("==")) code
  let code := replaceAll (s2l ("!==")) (s2l ("!=")) code
  let code := replaceAll (s2l ("&&")) (s2l ("and")) code
  let code := replaceAll (s2l ("||")) (s2l ("or")) code
  let code ← subT patBang [.l (s2l ("not ")), .g 1] code
  let code ← subT patIncr [.g 1, .l (s2l (" += 1"))] code
  let code ← subT patDecr [.g 1, .l (s2l (" -= 1"))] code
  let code ← subT patTemplateLit
    [.l (s2l ("f\"")), .g 1, .l [obr], .g 2, .l [cbr], .g 3, .l (s2l ("\""))] code
  let code ← subT patBacktickStr [.l (s2l ("\"")), .g 1, .l (s2l ("\""))] code
  some code

/-- The brace filter of `_cleanup_code` (lines 644–657): keep
dictionary-looking lines, drop standalone-brace lines, strip braces from
the rest. -/
def cleanup_brace_filter (lines : List Str) : List Str :=
  lines.foldl (fun acc line =>
    if (containsSubstr line (s2l ("return")) && containsSubstr line [obr]) ||
       (hasChar line ':' && hasChar line obr) then
      acc ++ [line]
    else if pyStrip line = [obr] ∨ pyStrip line = [cbr] then acc
    else acc ++ [replaceAll [cbr] [] (replaceAll [obr] [] line)]) []

/-- `'    ' * indent_level` with Python's semantics for a non-positive
count. -/
def indentSpaces (lvl : Int) : Str := List.replicate (4 * lvl.toNat) ' '

/-- One step of the indentation-reconstruction loop of `_cleanup_code`
(lines 672–693), acting on `(cleaned_lines, indent_level)`. -/
def cleanup_indent_step (acc : List Str × Int) (line : Str) : List Str × Int :=
  let stripped := pyStrip line
  if stripped = [] then (acc.1 ++ [[]], acc.2)
  else
    let lvl :=
      if startsWithAny stripped
          [s2l ("elif"), s2l ("else"), s2l ("except"), s2l ("finally")] then
        max 0 (acc.2 - 1)
      else acc.2
    if containsSubstr stripped (s2l ("__INDENT__")) then (acc.1, lvl)
    else
      let out := acc.1 ++ [indentSpaces lvl ++ stripped]
      let lvl' :=
        if endsWith stripped [':'] &&
           !(endsWith stripped (s2l ("\":")) || endsWith stripped (s2l ("':")) ||
             startsWith stripped ['#']) then
          lvl + 1
        else lvl
      (out, lvl')

/-- `_cleanup_code` (lines 637–695). -/
def cleanup_code (code : Str) : Option Str := do
  let code ← subT patComment [.l (s2l ("# ")), .g 1] code
  let code := joinChar '\n' (cleanup_brace_filter (splitOnChar '\n' code))
  let code := replaceAll (s2l (";")) [] code
  let code ← subT patColonFix [.g 1, .l (s2l (" ")), .g 2, .l (s2l (":\n"))] code
  let lines := splitOnChar '\n' code
  some (joinChar '\n' ((lines.foldl cleanup_indent_step ([], 0)).1))

/-- One iteration of the return-indentation loop of `_post_process`
(lines 709–715); `i` ranges over `range(len(lines)-1)` and the list is
mutated in place. -/
def post_return_step (lines : List Str) (i : Nat) : Option (List Str) := do
  let li ← lines[i]?
  let li1 ← lines[i + 1]?
  if startsWith (pyStrip li) (s2l ("return ")) &&
     !(startsWithAny (pyStrip li1)
        [s2l ("elif"), s2l ("else"), s2l ("except"), s2l ("finally")]) then
    if i < lines.length - 2 ∧ pyStrip li1 ≠ [] ∧ !(startsWith li1 [' ']) then
      some (lines.set (i + 1)
        (List.replicate (li.length - (lstrip li).length) ' ' ++ lstrip li1))
    else some lines
  else some lines

/-- `_post_process` (lines 697–717). -/
def post_process (code : Str) : Option Str := do
  let code ← subT patComment [.l (s2l ("# ")), .g 1] code
  let code ← subT patPostColon [.g 1, .l (s2l (" ")), .g 2, .l (s2l (":"))] code
  let code ← subT patPassFix [.g 1, .l (s2l (":\n    pass\n\n"))] code
  let lines := splitOnChar '\n' code
  let lines ← (List.range (lines.length - 1)).foldlM post_return_step lines
  some (joinChar '\n' lines)

/-- The candidate synthesized import lines (`_generate_imports`,
lines 719–747). -/
def typingLine : Str := s2l ("from typing import List, Dict, Any, Union, Optional, Awaitable")

def typingHints : List Str :=
  [s2l ("List["), s2l ("Dict["), s2l ("Any"), s2l ("Union["),
   s2l ("Optional["), s2l ("Awaitable[")]

/-- The `imports` list `_generate_imports` builds (lines 721–745): each
candidate line is appended independently when its lexical trigger occurs
in `code`. -/
def import_candidates (code : Str) : List Str :=
  (if typingHints.any fun hint => containsSubstr code hint then [typingLine] else []) ++
  (if containsSubstr code (s2l ("async def")) || containsSubstr code (s2l ("await")) then
    [s2l ("import asyncio")] else []) ++
  (if containsSubstr code (s2l ("math.")) then [s2l ("import math")] else []) ++
  (if containsSubstr code (s2l ("random.")) then [s2l ("import random")] else []) ++
  (if containsSubstr code (s2l ("json.")) then [s2l ("import json")] else []) ++
  (if containsSubstr code (s2l ("functools.reduce")) then [s2l ("import functools")] else [])

/-- `_generate_imports` (lines 719–747). -/
def generate_imports (code : Str) : Str :=
  joinChar '\n' (import_candidates code)

/-- Everything `convert` (lines 88–127) does before import synthesis:
the eleven rewrite passes.  `ρ_init` is the state `self.renamed_vars`
holds when `convert` is entered (`{}` for a fresh converter). -/
def convert_body (ρ_init : RTable) (js_code : Str) : Option Str := do
  let code ← subT patDecorator [] js_code
  let code ← convert_imports code
  let code ← convert_functions code
  let code ← convert_classes code
  let code ← convert_array_methods code
  let (code, ρ) ← convert_variables ρ_init code
  let code ← convert_control_structures code
  let code ← convert_objects ρ code
  let code ← convert_common_methods code
  let code ← convert_operators code
  let code ← cleanup_code code
  post_process code

/-- `JSPythonConverter.convert` (lines 88–134). -/
def convert (ρ_init : RTable) (js_code : Str) : Option Str := do
  let python_code ← convert_body ρ_init js_code
  let imports := generate_imports python_code
  some (if imports ≠ [] then imports ++ s2l ("\n\n") ++ python_code else python_code)

/-- `js_to_python` (lines 751–754): a fresh converter (whose constructor
sets `self.renamed_vars = {}`) applied to the code. -/
def js_to_python (js_code : String) : Option String :=
  (convert [] (s2l js_code)).map l2s

/-! ## Observation helpers used by the claim statements -/

def linesOf (s : Str) : List Str := splitOnChar '\n' s

def c4f_in : Str := s2l ("items.filter(x => x > 0)")

def c4f_out : Str := s2l ("[x for x in items if x > 0]:")

def c4m_in : Str := s2l ("items.map(x => x * 2)")

def c4m_out : Str := s2l ("[x * 2 for x in items]:")

def c4r_in : Str := s2l ("numbers.reduce((a, b) => a + b, 0)")

def c4r_out : Str :=
  s2l ("import functools\n\nfunctools.reduce(lambda a, b: a + b, numbers, 0)")

/-- The bracketed typing-name triggers the claim describes
(`List[`/`Dict[`/"other bracketed typing names"). -/
def claimedTypingTriggers : List Str :=
  [s2l ("List["), s2l ("Dict["), s2l ("Any["), s2l ("Union["),
   s2l ("Optional["), s2l ("Awaitable[")]

/-! ## Totality machinery: groups that every successful match binds

`re.sub` raises when a replacement (template `\i`, or a lambda calling a
method on `m.group(i)`) refers to a group the match left unset.
`MustBind re i` is a syntactic criterion guaranteeing group `i` is bound
in every successful match of `re`; all group references the converter
makes satisfy it, which is the heart of the no-exception claim. -/

def MustBind : Re → Nat → Bool
  | .eps, _ => false
  | .ch _, _ => false
  | .str _, _ => false
  | .cls _, _ => false
  | .seq r₁ r₂, i => MustBind r₁ i || MustBind r₂ i
  | .alt r₁ r₂, i => MustBind r₁ i && MustBind r₂ i
  | .star _, _ => false
  | .opt _, _ => false
  | .group j r, i => (i == j) || MustBind r i
  | .backref _, _ => false
  | .wordB, _ => false
  | .nla _, _ => false
  | .nlbChar _, _ => false
  | .eolM, _ => false

/-- The group indices a substitution template refers to. -/
def tmplRefs : Tmpl → List Nat
  | [] => []
  | .l _ :: t => tmplRefs t
  | .g i :: t => i :: tmplRefs t

theorem capLookup_cons (j st ln : Nat) (c : Caps) (i : Nat) :
    capLookup ((j, st, ln) :: c) i = if j = i then some (st, ln) else capLookup c i := by
  by_cases h : j = i <;> simp [capLookup, List.find?, h]

theorem mstarGo_caps (body : Option Char → Nat → Str → Caps → List MSt)
    (hb : ∀ prev pos rest caps s, s ∈ body prev pos rest caps →
      ∀ i, (capLookup caps i).isSome = true → (capLookup s.caps i).isSome = true) :
    ∀ (fuel : Nat) (prev : Option Char) (pos : Nat) (rest : Str) (caps : Caps) (s : MSt),
      s ∈ mstarGo body fuel prev pos rest caps →
      ∀ i, (capLookup caps i).isSome = true → (capLookup s.caps i).isSome = true := by
  intro fuel
  induction fuel with
  | zero =>
    intro prev pos rest caps s hs i hi
    simp [mstarGo] at hs
    subst hs
    exact hi
  | succ fuel ih =>
    intro prev pos rest caps s hs i hi
    simp only [mstarGo, List.mem_append, List.mem_singleton] at hs
    rcases hs with hs | hs
    · obtain ⟨s₁, hs₁, hs₂⟩ := List.mem_flatMap.mp hs
      by_cases hlt : s₁.rest.length < rest.length
      · rw [if_pos hlt] at hs₂
        exact ih s₁.prev s₁.pos s₁.rest s₁.caps s hs₂ i (hb _ _ _ _ _ hs₁ i hi)
      · rw [if_neg hlt] at hs₂
        exact absurd hs₂ (List.not_mem_nil s)
    · subst hs
      exact hi

theorem mtchAll_caps (subj : Str) :
    ∀ (re : Re) (prev : Option Char) (pos : Nat) (rest : Str) (caps : Caps) (s : MSt),
      s ∈ Re.mtchAll subj re prev pos rest caps →
      (∀ i, (capLookup caps i).isSome = true → (capLookup s.caps i).isSome = true) ∧
      (∀ i, MustBind re i = true → (capLookup s.caps i).isSome = true) := by
  intro re
  induction re with
  | eps =>
    intro prev pos rest caps s hs
    simp [Re.mtchAll] at hs
    subst hs
    exact ⟨fun i hi => hi, fun i hi => by simp [MustBind] at hi⟩
  | ch c =>
    intro prev pos rest caps s hs
    match rest with
    | [] => simp [Re.mtchAll] at hs
    | c' :: rest' =>
      simp only [Re.mtchAll] at hs
      by_cases h : c' = c
      · rw [if_pos h] at hs
        simp at hs
        subst hs
        exact ⟨fun i hi => hi, fun i hi => by simp [MustBind] at hi⟩
      · rw [if_neg h] at hs
        exact absurd hs (List.not_mem_nil s)
  | str t =>
    intro prev pos rest caps s hs
    simp only [Re.mtchAll] at hs
    by_cases h : t.isPrefixOf rest
    · rw [if_pos h] at hs
      simp at hs
      subst hs
      exact ⟨fun i hi => hi, fun i hi => by simp [MustBind] at hi⟩
    · rw [if_neg h] at hs
      exact absurd hs (List.not_mem_nil s)
  | cls p =>
    intro prev pos rest caps s hs
    match rest with
    | [] => simp [Re.mtchAll] at hs
    | c' :: rest' =>
      simp only [Re.mtchAll] at hs
      by_cases h : p c'
      · rw [if_pos h] at hs
        simp at hs
        subst hs
        exact ⟨fun i hi => hi, fun i hi => by simp [MustBind] at hi⟩
      · rw [if_neg h] at hs
        exact absurd hs (List.not_mem_nil s)
  | seq r₁ r₂ ih₁ ih₂ =>
    intro prev pos rest caps s hs
    simp only [Re.mtchAll] at hs
    obtain ⟨s₁, hs₁, hs₂⟩ := List.mem_flatMap.mp hs
    obtain ⟨m₁, b₁⟩ := ih₁ prev pos rest caps s₁ hs₁
    obtain ⟨m₂, b₂⟩ := ih₂ s₁.prev s₁.pos s₁.rest s₁.caps s hs₂
    refine ⟨fun i hi => m₂ i (m₁ i hi), fun i hi => ?_⟩
    simp only [MustBind, Bool.or_eq_true] at hi
    rcases hi with hi | hi
    · exact m₂ i (b₁ i hi)
    · exact b₂ i hi
  | alt r₁ r₂ ih₁ ih₂ =>
    intro prev pos rest caps s hs
    simp only [Re.mtchAll, List.mem_append] at hs
    rcases hs with hs | hs
    · obtain ⟨m₁, b₁⟩ := ih₁ prev pos rest caps s hs
      refine ⟨m₁, fun i hi => ?_⟩
      simp only [MustBind, Bool.and_eq_true] at hi
      exact b₁ i hi.1
    · obtain ⟨m₂, b₂⟩ := ih₂ prev pos rest caps s hs
      refine ⟨m₂, fun i hi => ?_⟩
      simp only [MustBind, Bool.and_eq_true] at hi
      exact b₂ i hi.2
  | star r ih =>
    intro prev pos rest caps s hs
    simp only [Re.mtchAll] at hs
    refine ⟨fun i hi => ?_, fun i hi => by simp [MustBind] at hi⟩
    exact mstarGo_caps (Re.mtchAll subj r)
      (fun prev' pos' rest' caps' s' hs' i' hi' =>
        (ih prev' pos' rest' caps' s' hs').1 i' hi')
      (rest.length + 1) prev pos rest caps s hs i hi
  | opt r ih =>
    intro prev pos rest caps s hs
    simp only [Re.mtchAll, List.mem_append, List.mem_singleton] at hs
    rcases hs with hs | hs
    · exact ⟨fun i hi => (ih prev pos rest caps s hs).1 i hi,
        fun i hi => by simp [MustBind] at hi⟩
    · subst hs
      exact ⟨fun i hi => hi, fun i hi => by simp [MustBind] at hi⟩
  | group j r ih =>
    intro prev pos rest caps s hs
    simp only [Re.mtchAll, List.mem_map] at hs
    obtain ⟨s₁, hs₁, hs₂⟩ := hs
    obtain ⟨m₁, b₁⟩ := ih prev pos rest caps s₁ hs₁
    subst hs₂
    constructor
    · intro i hi
      simp only [capLookup_cons]
      by_cases h : j = i
      · simp [h]
      · simp only [if_neg h]
        exact m₁ i hi
    · intro i hi
      simp only [MustBind, Bool.or_eq_true, beq_iff_eq] at hi
      simp only [capLookup_cons]
      by_cases h : j = i
      · simp [h]
      · simp only [if_neg h]
        rcases hi with hi | hi
        · exact absurd hi.symm h
        · exact b₁ i hi
  | backref j =>
    intro prev pos rest caps s hs
    simp only [Re.mtchAll] at hs
    split at hs
    · exact absurd hs (List.not_mem_nil s)
    · split at hs
      · simp at hs
        subst hs
        exact ⟨fun i hi => hi, fun i hi => by simp [MustBind] at hi⟩
      · exact absurd hs (List.not_mem_nil s)
  | wordB =>
    intro prev pos rest caps s hs
    simp only [Re.mtchAll] at hs
    by_cases h : isBoundary prev rest
    · rw [if_pos h] at hs
      simp at hs
      subst hs
      exact ⟨fun i hi => hi, fun i hi => by simp [MustBind] at hi⟩
    · rw [if_neg h] at hs
      exact absurd hs (List.not_mem_nil s)
  | nla r ih =>
    intro prev pos rest caps s hs
    simp only [Re.mtchAll] at hs
    match hm : Re.mtchAll subj r prev pos rest caps with
    | [] =>
      rw [hm] at hs
      simp at hs
      subst hs
      exact ⟨fun i hi => hi, fun i hi => by simp [MustBind] at hi⟩
    | _ :: _ =>
      rw [hm] at hs
      exact absurd hs (List.not_mem_nil s)
  | nlbChar c =>
    intro prev pos rest caps s hs
    simp only [Re.mtchAll] at hs
    by_cases h : prev = some c
    · rw [if_pos h] at hs
      exact absurd hs (List.not_mem_nil s)
    · rw [if_neg h] at hs
      simp at hs
      subst hs
      exact ⟨fun i hi => hi, fun i hi => by simp [MustBind] at hi⟩
  | eolM =>
    intro prev pos rest caps s hs
    match rest with
    | [] =>
      simp [Re.mtchAll] at hs
      subst hs
      exact ⟨fun i hi => hi, fun i hi => by simp [MustBind] at hi⟩
    | c :: rest' =>
      simp only [Re.mtchAll] at hs
      by_cases h : c = '\n'
      · rw [if_pos h] at hs
        simp at hs
        subst hs
        exact ⟨fun i hi => hi, fun i hi => by simp [MustBind] at hi⟩
      · rw [if_neg h] at hs
        exact absurd hs (List.not_mem_nil s)

/-- Every group `MustBind` promises is bound in the match `re.sub` uses. -/
theorem firstMatch_bound (subj : Str) (re : Re) (prev : Option Char) (pos : Nat)
    (rest : Str) (m : MSt) (h : firstMatch subj re prev pos rest = some m) :
    ∀ i, MustBind re i = true → (capLookup m.caps i).isSome = true := by
  have hm : m ∈ Re.mtchAll subj re prev pos rest [] := by
    unfold firstMatch at h
    match hl : Re.mtchAll subj re prev pos rest [] with
    | [] => rw [hl] at h; simp at h
    | a :: t => rw [hl] at h; simp at h; subst h; exact List.mem_cons_self a t
  exact (mtchAll_caps subj re prev pos rest [] m hm).2

/-! ## Totality of the substitution drivers -/

theorem isSome_bind {α β : Type} {a : Option α} {f : α → Option β}
    (h : a.isSome = true) (hf : ∀ x, (f x).isSome = true) : (a.bind f).isSome = true := by
  obtain ⟨x, hx⟩ := Option.isSome_iff_exists.mp h
  rw [hx]
  exact hf x

theorem isSome_map {α β : Type} (f : α → β) {a : Option α} (h : a.isSome = true) :
    (a.map f).isSome = true := by
  obtain ⟨x, hx⟩ := Option.isSome_iff_exists.mp h
  rw [hx]
  rfl

theorem render_isSome (subj : Str) (caps : Caps) :
    ∀ tmpl : Tmpl, (∀ i ∈ tmplRefs tmpl, (capLookup caps i).isSome = true) →
      (render subj caps tmpl).isSome = true := by
  intro tmpl
  induction tmpl with
  | nil => intro _; rfl
  | cons p t ih =>
    cases p with
    | l s =>
      intro h
      exact isSome_map _ (ih fun i hi => h i (by simpa [tmplRefs] using hi))
    | g i =>
      intro h
      obtain ⟨v, hv⟩ := Option.isSome_iff_exists.mp (h i (by simp [tmplRefs]))
      obtain ⟨r, hr⟩ := Option.isSome_iff_exists.mp
        (ih fun j hj => h j (by simp [tmplRefs, hj]))
      simp [render, hv, hr]

theorem subFuel_isSome {σ : Type} (re : Re) (repl : Caps → σ → Option (Str × σ)) (subj : Str)
    (hrepl : ∀ caps st, (∀ i, MustBind re i = true → (capLookup caps i).isSome = true) →
      (repl caps st).isSome = true) :
    ∀ (fuel : Nat) (prev : Option Char) (pos : Nat) (rest : Str) (st : σ),
      (subFuel re repl subj fuel prev pos rest st).isSome = true := by
  intro fuel
  induction fuel with
  | zero => intro prev pos rest st; rfl
  | succ fuel ih =>
    intro prev pos rest st
    rcases hm : firstMatch subj re prev pos rest with _ | m
    · simp only [subFuel, hm]
      rcases rest with _ | ⟨c, rest'⟩
      · rfl
      · exact isSome_bind (ih (some c) (pos + 1) rest' st) fun x => rfl
    · have hb := firstMatch_bound subj re prev pos rest m hm
      simp only [subFuel, hm]
      by_cases hlt : m.rest.length < rest.length
      · rw [if_pos hlt]
        refine isSome_bind (hrepl m.caps st hb) fun x => ?_
        obtain ⟨t, st'⟩ := x
        exact isSome_bind (ih m.prev m.pos m.rest st') fun y => by obtain ⟨o, s''⟩ := y; rfl
      · rw [if_neg hlt]
        refine isSome_bind (hrepl m.caps st hb) fun x => ?_
        obtain ⟨t, st'⟩ := x
        rcases rest with _ | ⟨c, rest'⟩
        · rfl
        · exact isSome_bind (ih (some c) (pos + 1) rest' st') fun y => by obtain ⟨o, s''⟩ := y; rfl

theorem subSt_isSome {σ : Type} (re : Re) (repl : Caps → σ → Option (Str × σ)) (s : Str) (st : σ)
    (hrepl : ∀ caps st, (∀ i, MustBind re i = true → (capLookup caps i).isSome = true) →
      (repl caps st).isSome = true) :
    (subSt re repl s st).isSome = true :=
  subFuel_isSome re repl s hrepl (s.length + 1) none 0 s st

theorem subT_isSome (re : Re) (tmpl : Tmpl) (s : Str)
    (hok : (tmplRefs tmpl).all (fun i => MustBind re i) = true) :
    (subT re tmpl s).isSome = true := by
  unfold subT
  refine isSome_map _ (subSt_isSome _ _ _ _ fun caps st hb => isSome_map _ ?_)
  refine render_isSome s caps tmpl fun i hi => hb i ?_
  exact List.all_eq_true.mp hok i hi

/-! ## Totality of the auxiliary string operations -/

theorem hasChar_iff_mem (c : Char) : ∀ l : Str, hasChar l c = true ↔ c ∈ l := by
  intro l
  induction l with
  | nil => simp [hasChar]
  | cons a t ih => simp [hasChar, ih]

theorem splitOnce_isSome (sep : Char) :
    ∀ l : Str, hasChar l sep = true → (splitOnce sep l).isSome = true := by
  intro l
  induction l with
  | nil => intro h; simp [hasChar] at h
  | cons c t ih =>
    intro h
    simp only [splitOnce]
    by_cases hc : c = sep
    · rw [if_pos hc]; rfl
    · rw [if_neg hc]
      refine isSome_map _ (ih ?_)
      simp only [hasChar, Bool.or_eq_true, decide_eq_true_eq] at h
      rcases h with h | h
      · exact absurd h.symm hc
      · exact h

theorem splitOnce_len (sep : Char) :
    ∀ (l a b : Str), splitOnce sep l = some (a, b) → a.length + 1 + b.length = l.length := by
  intro l
  induction l with
  | nil => intro a b h; simp [splitOnce] at h
  | cons c t ih =>
    intro a b h
    simp only [splitOnce] at h
    by_cases hc : c = sep
    · rw [if_pos hc] at h
      simp at h
      obtain ⟨ha, hb⟩ := h
      subst ha; subst hb
      simp only [List.length_nil, List.length_cons]
      omega
    · rw [if_neg hc] at h
      rcases hs : splitOnce sep t with _ | ⟨a', b'⟩
      · rw [hs] at h; simp at h
      · rw [hs] at h
        simp at h
        obtain ⟨ha, hb⟩ := h
        subst ha; subst hb
        have := ih a' b' hs
        simp only [List.length_cons]
        omega

theorem lstrip_length_le : ∀ l : Str, (lstrip l).length ≤ l.length := by
  intro l
  induction l with
  | nil => simp [lstrip]
  | cons c t ih =>
    simp only [lstrip]
    by_cases h : isSpaceChar c
    · rw [if_pos h]
      exact Nat.le_succ_of_le ih
    · rw [if_neg h]

theorem pyStrip_length_le (l : Str) : (pyStrip l).length ≤ l.length := by
  unfold pyStrip rstrip
  calc ((lstrip (lstrip l).reverse).reverse).length
      = (lstrip (lstrip l).reverse).length := List.length_reverse _
    _ ≤ (lstrip l).reverse.length := lstrip_length_le _
    _ = (lstrip l).length := List.length_reverse _
    _ ≤ l.length := lstrip_length_le l

theorem splitOnChar_ne_nil (sep : Char) : ∀ l : Str, splitOnChar sep l ≠ [] := by
  intro l
  induction l with
  | nil => simp [splitOnChar]
  | cons c t ih =>
    simp only [splitOnChar]
    by_cases hc : c = sep
    · rw [if_pos hc]; simp
    · rw [if_neg hc]
      rcases hs : splitOnChar sep t with _ | ⟨h₀, r⟩
      · simp
      · simp

theorem splitOnChar_part_le (sep : Char) :
    ∀ (l : Str) (p : Str), p ∈ splitOnChar sep l →
      p.length + (if hasChar l sep then 1 else 0) ≤ l.length := by
  intro l
  induction l with
  | nil =>
    intro p hp
    simp [splitOnChar] at hp
    subst hp
    simp [hasChar]
  | cons c t ih =>
    intro p hp
    have hcons : (if hasChar (c :: t) sep then (1 : Nat) else 0) ≤
        (if sep = c then 1 else 0) + (if hasChar t sep then 1 else 0) := by
      simp only [hasChar]
      by_cases h1 : sep = c <;> by_cases h2 : hasChar t sep <;> simp [h1, h2]
    simp only [splitOnChar] at hp
    by_cases hc : c = sep
    · rw [if_pos hc] at hp
      have hsep : hasChar (c :: t) sep = true := by
        simp [hasChar, hc, eq_comm]
      rw [if_pos hsep]
      rcases List.mem_cons.mp hp with hp | hp
      · subst hp
        simp only [List.length_nil, List.length_cons]
        omega
      · have := ih p hp
        by_cases ht : hasChar t sep
        · rw [if_pos ht] at this
          simp only [List.length_cons]
          omega
        · rw [if_neg ht] at this
          simp only [List.length_cons]
          omega
    · rw [if_neg hc] at hp
      rcases hs : splitOnChar sep t with _ | ⟨h₀, r⟩
      · exact absurd hs (splitOnChar_ne_nil sep t)
      · rw [hs] at hp
        have hxc : ¬(sep = c) := fun hh => hc hh.symm
        rcases List.mem_cons.mp hp with hp | hp
        · subst hp
          have := ih h₀ (by rw [hs]; exact List.mem_cons_self _ _)
          simp only [List.length_cons]
          rw [if_neg hxc] at hcons
          by_cases ht : hasChar t sep
          · rw [if_pos ht] at this hcons; omega
          · rw [if_neg ht] at this hcons; omega
        · have := ih p (by rw [hs]; exact List.mem_cons_of_mem _ hp)
          simp only [List.length_cons]
          rw [if_neg hxc] at hcons
          by_cases ht : hasChar t sep
          · rw [if_pos ht] at this hcons; omega
          · rw [if_neg ht] at this hcons; omega

theorem splitOnChar_part_lt (sep : Char) (l p : Str) (hp : p ∈ splitOnChar sep l)
    (hc : hasChar l sep = true) : p.length < l.length := by
  have := splitOnChar_part_le sep l p hp
  rw [if_pos hc] at this
  omega

theorem idxOf?_isSome (sep : Char) : ∀ l : Str, sep ∈ l → (idxOf? sep l).isSome = true := by
  intro l
  induction l with
  | nil => intro h; simp at h
  | cons c t ih =>
    intro h
    simp only [idxOf?]
    by_cases hc : c = sep
    · rw [if_pos hc]; rfl
    · rw [if_neg hc]
      refine isSome_map _ (ih ?_)
      rcases List.mem_cons.mp h with h | h
      · exact absurd h.symm hc
      · exact h

theorem rIdxOf?_isSome (sep : Char) (l : Str) (h : sep ∈ l) :
    (rIdxOf? sep l).isSome = true := by
  unfold rIdxOf?
  exact isSome_map _ (idxOf?_isSome sep l.reverse (List.mem_reverse.mpr h))

theorem optMapM_isSome {α β : Type} (f : α → Option β) :
    ∀ l : List α, (∀ a ∈ l, (f a).isSome = true) → (optMapM f l).isSome = true := by
  intro l
  induction l with
  | nil => intro _; rfl
  | cons a t ih =>
    intro h
    simp only [optMapM]
    refine isSome_bind (h a (List.mem_cons_self a t)) fun b => ?_
    exact isSome_bind (ih fun x hx => h x (List.mem_cons_of_mem a hx)) fun r => rfl

theorem foldlM_isSome {α β : Type} (f : β → α → Option β)
    (hf : ∀ b a, (f b a).isSome = true) :
    ∀ (l : List α) (b : β), (l.foldlM f b).isSome = true := by
  intro l
  induction l with
  | nil => intro b; rfl
  | cons a t ih =>
    intro b
    rw [List.foldlM_cons]
    exact isSome_bind (hf b a) fun b' => ih b'

/-! ## Totality of `_convert_type` and friends -/

theorem convert_type_fuel_isSome :
    ∀ (fuel : Nat) (ts : Str), ts.length < fuel → (convert_type_fuel fuel ts).isSome = true := by
  intro fuel
  induction fuel with
  | zero => intro ts h; omega
  | succ fuel ih =>
    intro ts0 hlen
    simp only [convert_type_fuel]
    by_cases h0 : ts0 = []
    · rw [if_pos h0]; rfl
    rw [if_neg h0]
    have hts : (pyStrip ts0).length ≤ fuel := by
      have := pyStrip_length_le ts0
      omega
    by_cases hu : hasChar (pyStrip ts0) '|'
    · rw [if_pos hu]
      refine isSome_map _ (optMapM_isSome _ _ fun t ht => ih _ ?_)
      have hlt := splitOnChar_part_lt '|' (pyStrip ts0) t ht hu
      have := pyStrip_length_le t
      omega
    rw [if_neg hu]
    by_cases htm : ((type_map.find? fun e => e.1 = pyStrip ts0).isSome) = true
    · rw [if_pos htm]
      exact isSome_map _ htm
    rw [if_neg htm]
    by_cases hg : hasChar (pyStrip ts0) '<' = true ∧ hasChar (pyStrip ts0) '>' = true
    · rw [if_pos hg]
      have hne : '<' ∈ pyStrip ts0 := (hasChar_iff_mem '<' _).mp hg.1
      have hpos : 1 ≤ (pyStrip ts0).length := by
        rcases hh : pyStrip ts0 with _ | ⟨c, t⟩
        · rw [hh] at hne; simp at hne
        · simp
      refine isSome_bind (idxOf?_isSome '<' (pyStrip ts0) hne) fun i => ?_
      refine isSome_bind (rIdxOf?_isSome '>' (pyStrip ts0)
        ((hasChar_iff_mem '>' _).mp hg.2)) fun j => ?_
      have hinner : (((pyStrip ts0).drop (i + 1)).take (j - (i + 1))).length ≤
          (pyStrip ts0).length - 1 := by
        rw [List.length_take, List.length_drop]
        omega
      by_cases hA : (pyStrip ts0).take i = s2l ("Array")
      · rw [if_pos hA]
        exact isSome_map _ (ih _ (by omega))
      rw [if_neg hA]
      by_cases hP : (pyStrip ts0).take i = s2l ("Promise")
      · rw [if_pos hP]
        exact isSome_map _ (ih _ (by omega))
      rw [if_neg hP]
      by_cases hR : (pyStrip ts0).take i = s2l ("Record")
      · rw [if_pos hR]
        rcases hsp : splitOnce ',' (((pyStrip ts0).drop (i + 1)).take (j - (i + 1))) with _ | ⟨k, v⟩
        · rfl
        · have hkv := splitOnce_len ',' _ k v hsp
          refine isSome_bind (ih k (by omega)) fun pk => ?_
          exact isSome_bind (ih v (by omega)) fun pv => rfl
      · rw [if_neg hR]
        rfl
    · rw [if_neg hg]
      rfl

theorem convert_type_isSome (ts : Str) : (convert_type ts).isSome = true :=
  convert_type_fuel_isSome (ts.length + 1) ts (Nat.lt_succ_self _)

theorem convert_params_isSome (params : Str) : (convert_params params).isSome = true := by
  unfold convert_params
  by_cases h : pyStrip params = []
  · rw [if_pos h]; rfl
  · rw [if_neg h]
    refine isSome_map _ (optMapM_isSome _ _ fun param _ => ?_)
    by_cases hc : hasChar (pyStrip param) ':'
    · simp only [if_pos hc]
      refine isSome_bind (splitOnce_isSome ':' _ hc) fun nt => ?_
      obtain ⟨n, t⟩ := nt
      exact isSome_bind (convert_type_isSome _) fun pt => rfl
    · simp only [if_neg hc]
      rfl

theorem handle_var_declaration_isSome (ρ : RTable) (name : Str) (ts : Option Str) (typed : Bool) :
    (handle_var_declaration ρ name ts typed).isSome = true := by
  unfold handle_var_declaration
  rcases typed with _ | _ <;> rcases ts with _ | t <;> simp only []
  · rfl
  · rfl
  · rfl
  · by_cases ht : t ≠ []
    · rw [if_pos ht]
      exact isSome_bind (convert_type_isSome t) fun pt => rfl
    · rw [if_neg ht]
      rfl

theorem convert_object_literal_isSome (ρ : RTable) (content : Str) :
    (convert_object_literal ρ content).isSome = true := by
  unfold convert_object_literal
  refine isSome_bind (foldlM_isSome _ (fun pairs line => ?_) _ _) fun pairs => rfl
  by_cases h0 : pyStrip line = [] ∨ pyStrip line = [',']
  · simp only [if_pos h0]; rfl
  · simp only [if_neg h0]
    by_cases hc : hasChar (if endsWith (pyStrip line) [','] then (pyStrip line).dropLast
        else pyStrip line) ':'
    · simp only [if_pos hc]
      obtain ⟨⟨k, v⟩, hkv⟩ := Option.isSome_iff_exists.mp (splitOnce_isSome ':' _ hc)
      rw [hkv]
      simp
    · simp only [if_neg hc]
      rfl

/-! ## Totality of each pass -/

theorem optBind_def {α β : Type} (a : Option α) (f : α → Option β) :
    (a >>= f) = a.bind f := rfl

theorem optSomeBind {α β : Type} (a : α) (f : α → Option β) :
    ((some a : Option α).bind f) = f a := rfl

theorem convert_imports_isSome (code : Str) : (convert_imports code).isSome = true := by
  unfold convert_imports
  simp only [optBind_def]
  refine isSome_bind (isSome_map _ (subSt_isSome _ _ _ _ fun caps st hb =>
    isSome_bind (isSome_map _ (hb 1 (by decide))) fun g1 =>
      isSome_bind (isSome_map _ (hb 2 (by decide))) fun g2 => rfl)) fun c1 => ?_
  refine isSome_bind (isSome_map _ (subSt_isSome _ _ _ _ fun caps st hb =>
    isSome_bind (isSome_map _ (hb 1 (by decide))) fun g1 =>
      isSome_bind (isSome_map _ (hb 2 (by decide))) fun g2 => rfl)) fun c2 => ?_
  exact isSome_bind (isSome_map _ (subSt_isSome _ _ _ _ fun caps st hb =>
    isSome_bind (isSome_map _ (hb 1 (by decide))) fun g1 =>
      isSome_bind (isSome_map _ (hb 2 (by decide))) fun g2 => rfl)) fun c3 => rfl

theorem fn_return_type_isSome (code : Str) (caps : Caps) :
    (fn_return_type code caps).isSome = true := by
  unfold fn_return_type
  cases groupVal code caps 3 with
  | none => rfl
  | some g3 =>
    simp only []
    by_cases hne : g3 ≠ []
    · rw [if_pos hne]
      exact convert_type_isSome g3
    · rw [if_neg hne]
      rfl

theorem fn_decl_repl_isSome (kw code : Str) (caps : Caps)
    (h1 : (capLookup caps 1).isSome = true) (h2 : (capLookup caps 2).isSome = true) :
    (fn_decl_repl kw code caps).isSome = true := by
  unfold fn_decl_repl
  simp only [optBind_def]
  refine isSome_bind (isSome_map _ h1) fun g1 => ?_
  refine isSome_bind (isSome_map _ h2) fun g2 => ?_
  refine isSome_bind (convert_params_isSome _) fun ps => ?_
  exact isSome_bind (fn_return_type_isSome code caps) fun rt => rfl

theorem convert_functions_isSome (code : Str) : (convert_functions code).isSome = true := by
  unfold convert_functions
  simp only [optBind_def]
  refine isSome_bind (subT_isSome _ _ _ (by decide)) fun c1 => ?_
  refine isSome_bind (subT_isSome _ _ _ (by decide)) fun c2 => ?_
  refine isSome_bind (isSome_map _ (subSt_isSome _ _ _ _ fun caps st hb =>
    isSome_bind (fn_decl_repl_isSome _ _ _ (hb 1 (by decide)) (hb 2 (by decide)))
      fun r => rfl)) fun c3 => ?_
  exact isSome_bind (isSome_map _ (subSt_isSome _ _ _ _ fun caps st hb =>
    isSome_bind (fn_decl_repl_isSome _ _ _ (hb 1 (by decide)) (hb 2 (by decide)))
      fun r => rfl)) fun c4 => rfl

theorem convert_classes_isSome (code : Str) : (convert_classes code).isSome = true := by
  unfold convert_classes
  simp only [optBind_def]
  refine isSome_bind (isSome_map _ (subSt_isSome _ _ _ _ fun caps st hb =>
    isSome_bind (isSome_map _ (hb 1 (by decide))) fun g1 => rfl)) fun c1 => ?_
  exact isSome_bind (isSome_map _ (subSt_isSome _ _ _ _ fun caps st hb =>
    isSome_bind (isSome_map _ (hb 1 (by decide))) fun g1 => rfl)) fun c2 => rfl

theorem convert_array_methods_isSome (code : Str) :
    (convert_array_methods code).isSome = true := by
  unfold convert_array_methods
  simp only [optBind_def]
  refine isSome_bind (subT_isSome _ _ _ (by decide)) fun c1 => ?_
  refine isSome_bind (subT_isSome _ _ _ (by decide)) fun c2 => ?_
  refine isSome_bind (subT_isSome _ _ _ (by decide)) fun c3 => ?_
  refine isSome_bind (subT_isSome _ _ _ (by decide)) fun c4 => ?_
  refine isSome_bind (subT_isSome _ _ _ (by decide)) fun c5 => ?_
  refine isSome_bind (subT_isSome _ _ _ (by decide)) fun c6 => ?_
  refine isSome_bind (subT_isSome _ _ _ (by decide)) fun c7 => ?_
  refine isSome_bind (subT_isSome _ _ _ (by decide)) fun c8 => ?_
  refine isSome_bind (subT_isSome _ _ _ (by decide)) fun c9 => ?_
  exact isSome_bind (subT_isSome _ _ _ (by decide)) fun c10 => rfl

theorem convert_variables_isSome (ρ : RTable) (code : Str) :
    (convert_variables ρ code).isSome = true := by
  unfold convert_variables
  simp only [optBind_def]
  refine isSome_bind (subT_isSome _ _ _ (by decide)) fun c1 => ?_
  refine isSome_bind (subSt_isSome _ _ _ _ fun caps st hb =>
    isSome_bind (isSome_map _ (hb 1 (by decide))) fun g1 =>
      isSome_bind (isSome_map _ (hb 2 (by decide))) fun g2 =>
        handle_var_declaration_isSome _ _ _ _) fun p1 => ?_
  obtain ⟨c2, ρ₂⟩ := p1
  refine isSome_bind (subSt_isSome _ _ _ _ fun caps st hb =>
    isSome_bind (isSome_map _ (hb 1 (by decide))) fun g1 =>
      handle_var_declaration_isSome _ _ _ _) fun p2 => ?_
  obtain ⟨c3, ρ₃⟩ := p2
  refine isSome_bind (foldlM_isSome _ (fun b e => ?_) _ _) fun c4 => rfl
  refine isSome_bind (subT_isSome _ _ _ (by rfl)) fun q1 => ?_
  exact isSome_bind (subT_isSome _ _ _ (by rfl)) fun q2 => rfl

theorem convert_control_structures_isSome (code : Str) :
    (convert_control_structures code).isSome = true := by
  unfold convert_control_structures
  simp only [optBind_def]
  refine isSome_bind (subT_isSome _ _ _ (by decide)) fun c1 => ?_
  refine isSome_bind (subT_isSome _ _ _ (by decide)) fun c2 => ?_
  refine isSome_bind (subT_isSome _ _ _ (by decide)) fun c3 => ?_
  refine isSome_bind (subT_isSome _ _ _ (by decide)) fun c4 => ?_
  refine isSome_bind (subT_isSome _ _ _ (by decide)) fun c5 => ?_
  refine isSome_bind (subT_isSome _ _ _ (by decide)) fun c6 => ?_
  refine isSome_bind (subT_isSome _ _ _ (by decide)) fun c7 => ?_
  refine isSome_bind (subT_isSome _ _ _ (by decide)) fun c8 => ?_
  refine isSome_bind (subT_isSome _ _ _ (by decide)) fun c9 => ?_
  refine isSome_bind (subT_isSome _ _ _ (by decide)) fun c10 => ?_
  refine isSome_bind (subT_isSome _ _ _ (by decide)) fun c11 => ?_
  exact isSome_bind (subT_isSome _ _ _ (by decide)) fun c12 => rfl

theorem convert_objects_isSome (ρ : RTable) (code : Str) :
    (convert_objects ρ code).isSome = true := by
  unfold convert_objects
  simp only [optBind_def]
  refine isSome_bind (isSome_map _ (subSt_isSome _ _ _ _ fun caps st hb =>
    isSome_bind (isSome_map _ (hb 1 (by decide))) fun g1 =>
      isSome_bind (convert_object_literal_isSome ρ g1) fun d => rfl)) fun c1 => ?_
  exact isSome_bind (isSome_map _ (subSt_isSome _ _ _ _ fun caps st hb =>
    isSome_bind (isSome_map _ (hb 1 (by decide))) fun g1 =>
      isSome_bind (convert_object_literal_isSome ρ g1) fun d => rfl)) fun c2 => rfl

theorem convert_common_methods_isSome (code : Str) :
    (convert_common_methods code).isSome = true := by
  unfold convert_common_methods
  simp only [optBind_def]
  refine isSome_bind (subT_isSome _ _ _ (by decide)) fun c1 => ?_
  refine isSome_bind (subT_isSome _ _ _ (by decide)) fun c2 => ?_
  refine isSome_bind (foldlM_isSome _ (fun b e => ?_) _ _) fun c3 => ?_
  · by_cases hs : reSearch (patMethodVar e.1) b = true
    · simp only [hs, Bool.not_true, Bool.false_eq_true, if_false]
      rfl
    · have hs' : reSearch (patMethodVar e.1) b = false := by
        rcases hres : reSearch (patMethodVar e.1) b
        · rfl
        · exact absurd hres hs
      simp only [hs', Bool.not_false, if_true]
      exact subT_isSome _ _ _ (by rfl)
  refine isSome_bind (subT_isSome _ _ _ (by decide)) fun c4 => ?_
  refine isSome_bind (subT_isSome _ _ _ (by decide)) fun c5 => ?_
  refine isSome_bind (subT_isSome _ _ _ (by decide)) fun c6 => ?_
  refine isSome_bind (subT_isSome _ _ _ (by decide)) fun c7 => ?_
  refine isSome_bind (subT_isSome _ _ _ (by decide)) fun c8 => ?_
  exact isSome_bind (subT_isSome _ _ _ (by decide)) fun c9 => rfl

theorem convert_operators_isSome (code : Str) :
    (convert_operators code).isSome = true := by
  unfold convert_operators
  simp only [optBind_def]
  refine isSome_bind (subT_isSome _ _ _ (by decide)) fun c1 => ?_
  refine isSome_bind (subT_isSome _ _ _ (by decide)) fun c2 => ?_
  refine isSome_bind (subT_isSome _ _ _ (by decide)) fun c3 => ?_
  refine isSome_bind (subT_isSome _ _ _ (by decide)) fun c4 => ?_
  exact isSome_bind (subT_isSome _ _ _ (by decide)) fun c5 => rfl

theorem cleanup_code_isSome (code : Str) : (cleanup_code code).isSome = true := by
  unfold cleanup_code
  simp only [optBind_def]
  refine isSome_bind (subT_isSome _ _ _ (by decide)) fun c1 => ?_
  exact isSome_bind (subT_isSome _ _ _ (by decide)) fun c2 => rfl

theorem post_return_step_ok (lines : List Str) (i : Nat) (h : i + 1 < lines.length) :
    ∃ out, post_return_step lines i = some out ∧ out.length = lines.length := by
  unfold post_return_step
  rw [List.getElem?_eq_getElem (show i < lines.length by omega),
    List.getElem?_eq_getElem h]
  simp only [optBind_def, optSomeBind]
  split_ifs <;> refine ⟨_, rfl, ?_⟩ <;> simp [List.length_set]

theorem post_loop_ok (is : List Nat) :
    ∀ lines : List Str, (∀ i ∈ is, i + 1 < lines.length) →
      ∃ out, is.foldlM post_return_step lines = some out ∧ out.length = lines.length := by
  induction is with
  | nil => intro lines _; exact ⟨lines, rfl, rfl⟩
  | cons i t ih =>
    intro lines h
    obtain ⟨out1, ho1, hl1⟩ := post_return_step_ok lines i (h i (List.mem_cons_self i t))
    obtain ⟨out2, ho2, hl2⟩ := ih out1 fun j hj => by
      rw [hl1]
      exact h j (List.mem_cons_of_mem i hj)
    refine ⟨out2, ?_, by rw [hl2, hl1]⟩
    rw [List.foldlM_cons, optBind_def, ho1, optSomeBind, ho2]

theorem post_process_isSome (code : Str) : (post_process code).isSome = true := by
  unfold post_process
  simp only [optBind_def]
  refine isSome_bind (subT_isSome _ _ _ (by decide)) fun c1 => ?_
  refine isSome_bind (subT_isSome _ _ _ (by decide)) fun c2 => ?_
  refine isSome_bind (subT_isSome _ _ _ (by decide)) fun c3 => ?_
  obtain ⟨out, ho, _⟩ := post_loop_ok
    (List.range ((splitOnChar '\n' c3).length - 1)) (splitOnChar '\n' c3)
    (fun i hi => by have := List.mem_range.mp hi; omega)
  exact isSome_bind (by rw [ho]; rfl) fun x => rfl

theorem convert_body_isSome (ρ : RTable) (s : Str) : (convert_body ρ s).isSome = true := by
  unfold convert_body
  simp only [optBind_def]
  refine isSome_bind (subT_isSome _ _ _ (by decide)) fun c0 => ?_
  refine isSome_bind (convert_imports_isSome c0) fun c1 => ?_
  refine isSome_bind (convert_functions_isSome c1) fun c2 => ?_
  refine isSome_bind (convert_classes_isSome c2) fun c3 => ?_
  refine isSome_bind (convert_array_methods_isSome c3) fun c4 => ?_
  refine isSome_bind (convert_variables_isSome ρ c4) fun p => ?_
  obtain ⟨c5, ρ'⟩ := p
  refine isSome_bind (convert_control_structures_isSome c5) fun c6 => ?_
  refine isSome_bind (convert_objects_isSome ρ' c6) fun c7 => ?_
  refine isSome_bind (convert_common_methods_isSome c7) fun c8 => ?_
  refine isSome_bind (convert_operators_isSome c8) fun c9 => ?_
  refine isSome_bind (cleanup_code_isSome c9) fun c10 => ?_
  exact post_process_isSome c10

set_option maxHeartbeats 1000000 in
/-- C1. Totality: for every input string (and every prior rename-table
state), `convert` returns a string — `some` in the embedding, in which
every fallible Python operation on the execution path (`str.index`,
`str.rindex`, two-element unpacking of `str.split`, list indexing in the
post-processing loop, and substitution-template references to
possibly-unset groups) is `Option`-valued.  In particular no replacement
template ever refers to a group its pattern can leave unset
(`MustBind`), and the `_convert_type` recursion always terminates
because every recursive call strictly shrinks its argument. -/
theorem c1_convert_total : ∀ (ρ : RTable) (s : Str), (convert ρ s).isSome = true := by
  intro ρ s
  unfold convert
  simp only [optBind_def]
  exact isSome_bind (convert_body_isSome ρ s) fun body => rfl

/-! ## Character provenance: substitution output chars come from the
subject or from the replacement -/

/-- The literal characters of a substitution template. -/
def tmplLits : Tmpl → Str
  | [] => []
  | .l s :: t => s ++ tmplLits t
  | .g _ :: t => tmplLits t

theorem render_chars (subj : Str) (caps : Caps) :
    ∀ (tmpl : Tmpl) (out : Str), render subj caps tmpl = some out →
      ∀ c ∈ out, c ∈ subj ∨ c ∈ tmplLits tmpl := by
  intro tmpl
  induction tmpl with
  | nil =>
    intro out h c hc
    simp [render] at h
    subst h
    simp at hc
  | cons p t ih =>
    cases p with
    | l s =>
      intro out h c hc
      simp only [render] at h
      rcases hr : render subj caps t with _ | r
      · rw [hr] at h; simp at h
      · rw [hr] at h
        simp at h
        subst h
        rcases List.mem_append.mp hc with hc | hc
        · right; simp [tmplLits]; exact Or.inl hc
        · rcases ih r hr c hc with hh | hh
          · exact Or.inl hh
          · right; simp [tmplLits]; exact Or.inr hh
    | g i =>
      intro out h c hc
      simp only [render, optBind_def] at h
      rcases hl : capLookup caps i with _ | ⟨st, ln⟩
      · rw [hl] at h; simp at h
      · rw [hl] at h
        rcases hr : render subj caps t with _ | r
        · rw [hr] at h; simp at h
        · rw [hr] at h
          simp at h
          subst h
          rcases List.mem_append.mp hc with hc | hc
          · left
            exact List.drop_subset st subj (List.take_subset ln _ hc)
          · rcases ih r hr c hc with hh | hh
            · exact Or.inl hh
            · right; simpa [tmplLits] using hh

theorem mstarGo_suffix (body : Option Char → Nat → Str → Caps → List MSt)
    (hb : ∀ prev pos rest caps s, s ∈ body prev pos rest caps → s.rest <:+ rest) :
    ∀ (fuel : Nat) (prev : Option Char) (pos : Nat) (rest : Str) (caps : Caps) (s : MSt),
      s ∈ mstarGo body fuel prev pos rest caps → s.rest <:+ rest := by
  intro fuel
  induction fuel with
  | zero =>
    intro prev pos rest caps s hs
    simp [mstarGo] at hs
    subst hs
    exact List.suffix_refl rest
  | succ fuel ih =>
    intro prev pos rest caps s hs
    simp only [mstarGo, List.mem_append, List.mem_singleton] at hs
    rcases hs with hs | hs
    · obtain ⟨s₁, hs₁, hs₂⟩ := List.mem_flatMap.mp hs
      by_cases hlt : s₁.rest.length < rest.length
      · rw [if_pos hlt] at hs₂
        exact (ih s₁.prev s₁.pos s₁.rest s₁.caps s hs₂).trans (hb _ _ _ _ _ hs₁)
      · rw [if_neg hlt] at hs₂
        exact absurd hs₂ (List.not_mem_nil s)
    · subst hs
      exact List.suffix_refl rest

theorem mtchAll_suffix (subj : Str) :
    ∀ (re : Re) (prev : Option Char) (pos : Nat) (rest : Str) (caps : Caps) (s : MSt),
      s ∈ Re.mtchAll subj re prev pos rest caps → s.rest <:+ rest := by
  intro re
  induction re with
  | eps =>
    intro prev pos rest caps s hs
    simp [Re.mtchAll] at hs; subst hs; exact List.suffix_refl rest
  | ch c =>
    intro prev pos rest caps s hs
    match rest with
    | [] => simp [Re.mtchAll] at hs
    | c' :: rest' =>
      simp only [Re.mtchAll] at hs
      by_cases h : c' = c
      · rw [if_pos h] at hs; simp at hs; subst hs
        exact List.suffix_cons c' rest'
      · rw [if_neg h] at hs; exact absurd hs (List.not_mem_nil s)
  | str t =>
    intro prev pos rest caps s hs
    simp only [Re.mtchAll] at hs
    by_cases h : t.isPrefixOf rest
    · rw [if_pos h] at hs; simp at hs; subst hs
      exact List.drop_suffix t.length rest
    · rw [if_neg h] at hs; exact absurd hs (List.not_mem_nil s)
  | cls p =>
    intro prev pos rest caps s hs
    match rest with
    | [] => simp [Re.mtchAll] at hs
    | c' :: rest' =>
      simp only [Re.mtchAll] at hs
      by_cases h : p c'
      · rw [if_pos h] at hs; simp at hs; subst hs
        exact List.suffix_cons c' rest'
      · rw [if_neg h] at hs; exact absurd hs (List.not_mem_nil s)
  | seq r₁ r₂ ih₁ ih₂ =>
    intro prev pos rest caps s hs
    simp only [Re.mtchAll] at hs
    obtain ⟨s₁, hs₁, hs₂⟩ := List.mem_flatMap.mp hs
    exact (ih₂ s₁.prev s₁.pos s₁.rest s₁.caps s hs₂).trans (ih₁ prev pos rest caps s₁ hs₁)
  | alt r₁ r₂ ih₁ ih₂ =>
    intro prev pos rest caps s hs
    simp only [Re.mtchAll, List.mem_append] at hs
    rcases hs with hs | hs
    · exact ih₁ prev pos rest caps s hs
    · exact ih₂ prev pos rest caps s hs
  | star r ih =>
    intro prev pos rest caps s hs
    simp only [Re.mtchAll] at hs
    exact mstarGo_suffix (Re.mtchAll subj r)
      (fun prev' pos' rest' caps' s' hs' => ih prev' pos' rest' caps' s' hs')
      (rest.length + 1) prev pos rest caps s hs
  | opt r ih =>
    intro prev pos rest caps s hs
    simp only [Re.mtchAll, List.mem_append, List.mem_singleton] at hs
    rcases hs with hs | hs
    · exact ih prev pos rest caps s hs
    · subst hs; exact List.suffix_refl rest
  | group j r ih =>
    intro prev pos rest caps s hs
    simp only [Re.mtchAll, List.mem_map] at hs
    obtain ⟨s₁, hs₁, hs₂⟩ := hs
    subst hs₂
    exact ih prev pos rest caps s₁ hs₁
  | backref j =>
    intro prev pos rest caps s hs
    simp only [Re.mtchAll] at hs
    split at hs
    · exact absurd hs (List.not_mem_nil s)
    · split at hs
      · simp at hs; subst hs
        exact List.drop_suffix _ rest
      · exact absurd hs (List.not_mem_nil s)
  | wordB =>
    intro prev pos rest caps s hs
    simp only [Re.mtchAll] at hs
    by_cases h : isBoundary prev rest
    · rw [if_pos h] at hs; simp at hs; subst hs; exact List.suffix_refl rest
    · rw [if_neg h] at hs; exact absurd hs (List.not_mem_nil s)
  | nla r ih =>
    intro prev pos rest caps s hs
    simp only [Re.mtchAll] at hs
    split at hs
    · simp at hs; subst hs; exact List.suffix_refl rest
    · exact absurd hs (List.not_mem_nil s)
  | nlbChar c =>
    intro prev pos rest caps s hs
    simp only [Re.mtchAll] at hs
    by_cases h : prev = some c
    · rw [if_pos h] at hs; exact absurd hs (List.not_mem_nil s)
    · rw [if_neg h] at hs; simp at hs; subst hs; exact List.suffix_refl rest
  | eolM =>
    intro prev pos rest caps s hs
    match rest with
    | [] => simp [Re.mtchAll] at hs; subst hs; exact List.suffix_refl []
    | c :: rest' =>
      simp only [Re.mtchAll] at hs
      by_cases h : c = '\n'
      · rw [if_pos h] at hs; simp at hs; subst hs; exact List.suffix_refl _
      · rw [if_neg h] at hs; exact absurd hs (List.not_mem_nil s)

theorem firstMatch_suffix (subj : Str) (re : Re) (prev : Option Char) (pos : Nat)
    (rest : Str) (m : MSt) (h : firstMatch subj re prev pos rest = some m) :
    m.rest <:+ rest := by
  have hm : m ∈ Re.mtchAll subj re prev pos rest [] := by
    unfold firstMatch at h
    match hl : Re.mtchAll subj re prev pos rest [] with
    | [] => rw [hl] at h; simp at h
    | a :: t => rw [hl] at h; simp at h; subst h; exact List.mem_cons_self a t
  exact mtchAll_suffix subj re prev pos rest [] m hm

/-- Provenance through the substitution driver: every character of the
output either satisfies the replacement-output predicate `Q` or comes
from the scanned text. -/
theorem subFuel_chars {σ : Type} (re : Re) (repl : Caps → σ → Option (Str × σ)) (subj : Str)
    (Q : Char → Prop)
    (hrepl : ∀ caps st out st', repl caps st = some (out, st') → ∀ c ∈ out, Q c) :
    ∀ (fuel : Nat) (prev : Option Char) (pos : Nat) (rest : Str) (st : σ) (out : Str) (st' : σ),
      subFuel re repl subj fuel prev pos rest st = some (out, st') →
      ∀ c ∈ out, Q c ∨ c ∈ rest := by
  intro fuel
  induction fuel with
  | zero =>
    intro prev pos rest st out st' h c hc
    simp [subFuel] at h
    rw [← h.1] at hc
    exact Or.inr hc
  | succ fuel ih =>
    intro prev pos rest st out st' h c hc
    rcases hm : firstMatch subj re prev pos rest with _ | m
    · simp only [subFuel, hm] at h
      rcases rest with _ | ⟨a, rest'⟩
      · simp at h
        rw [h.1] at hc
        simp at hc
      · simp only [optBind_def] at h
        rcases ho : subFuel re repl subj fuel (some a) (pos + 1) rest' st with _ | ⟨o, s₂⟩
        · rw [ho] at h; simp at h
        · rw [ho] at h
          simp at h
          rw [← h.1] at hc
          rcases List.mem_cons.mp hc with hc | hc
          · exact Or.inr (by simp [hc])
          · rcases ih (some a) (pos + 1) rest' st o s₂ ho c hc with hq | hr
            · exact Or.inl hq
            · exact Or.inr (List.mem_cons_of_mem a hr)
    · have hsuf := firstMatch_suffix subj re prev pos rest m hm
      simp only [subFuel, hm] at h
      by_cases hlt : m.rest.length < rest.length
      · rw [if_pos hlt] at h
        simp only [optBind_def] at h
        rcases hrep : repl m.caps st with _ | ⟨t, st₁⟩
        · rw [hrep] at h; simp at h
        · rw [hrep] at h
          simp only [optSomeBind] at h
          rcases ho : subFuel re repl subj fuel m.prev m.pos m.rest st₁ with _ | ⟨o, st₂⟩
          · rw [ho] at h; simp at h
          · rw [ho] at h
            simp at h
            rw [← h.1] at hc
            rcases List.mem_append.mp hc with hc | hc
            · exact Or.inl (hrepl m.caps st t st₁ hrep c hc)
            · rcases ih m.prev m.pos m.rest st₁ o st₂ ho c hc with hq | hr
              · exact Or.inl hq
              · exact Or.inr (hsuf.subset hr)
      · rw [if_neg hlt] at h
        simp only [optBind_def] at h
        rcases hrep : repl m.caps st with _ | ⟨t, st₁⟩
        · rw [hrep] at h; simp at h
        · rw [hrep] at h
          simp only [optSomeBind] at h
          rcases rest with _ | ⟨a, rest'⟩
          · simp at h
            rw [← h.1] at hc
            exact Or.inl (hrepl m.caps st t st₁ hrep c hc)
          · simp only [optBind_def] at h
            rcases ho : subFuel re repl subj fuel (some a) (pos + 1) rest' st₁ with _ | ⟨o, st₂⟩
            · rw [ho] at h; simp at h
            · rw [ho] at h
              simp at h
              rw [← h.1] at hc
              rcases List.mem_append.mp hc with hc | hc
              · exact Or.inl (hrepl m.caps st t st₁ hrep c hc)
              · rcases List.mem_cons.mp hc with hc | hc
                · exact Or.inr (by simp [hc])
                · rcases ih (some a) (pos + 1) rest' st₁ o st₂ ho c hc with hq | hr
                  · exact Or.inl hq
                  · exact Or.inr (List.mem_cons_of_mem a hr)

/-- Every character a template substitution emits comes from the subject
or from the template's literal pieces. -/
theorem subT_chars (re : Re) (tmpl : Tmpl) (s : Str) (out : Str)
    (h : subT re tmpl s = some out) :
    ∀ c ∈ out, c ∈ s ∨ c ∈ tmplLits tmpl := by
  intro c hc
  unfold subT subSt at h
  rcases hf : subFuel re
      (fun caps u => (render s caps tmpl).map fun t => (t, u)) s
      (s.length + 1) none 0 s () with _ | ⟨o, u⟩
  · rw [hf] at h; simp at h
  · rw [hf] at h
    simp at h
    subst h
    have := subFuel_chars re _ s (fun c => c ∈ s ∨ c ∈ tmplLits tmpl)
      (fun caps st t st' hrep d hd => by
        rcases hr : render s caps tmpl with _ | r
        · rw [hr] at hrep; simp at hrep
        · rw [hr] at hrep
          simp at hrep
          rw [← hrep] at hd
          exact render_chars s caps tmpl r hr d hd)
      (s.length + 1) none 0 s () o u hf c hc
    rcases this with hq | hr
    · exact hq
    · exact Or.inl hr

/-! ## No semicolon survives to the output -/

theorem bind_some_elim {α β : Type} {a : Option α} {f : α → Option β} {b : β}
    (h : a.bind f = some b) : ∃ x, a = some x ∧ f x = some b := by
  rcases ha : a with _ | x
  · rw [ha] at h; simp at h
  · rw [ha] at h; exact ⟨x, rfl, h⟩

theorem mem_ite_singleton {α : Type} {x a : α} {c : Prop} [Decidable c]
    (h : x ∈ if c then [a] else ([] : List α)) : x = a ∧ c := by
  split_ifs at h with hc
  · exact ⟨List.mem_singleton.mp h, hc⟩
  · exact absurd h (List.not_mem_nil x)

theorem getElem?_mem' {α : Type} : ∀ (l : List α) (i : Nat) (a : α), l[i]? = some a → a ∈ l := by
  intro l
  induction l with
  | nil => intro i a h; simp at h
  | cons x t ih =>
    intro i a h
    match i with
    | 0 => simp at h; simp [h]
    | i + 1 =>
      simp only [List.getElem?_cons_succ] at h
      exact List.mem_cons_of_mem x (ih i a h)

theorem mem_set_elim {α : Type} : ∀ (l : List α) (i : Nat) (v a : α),
    a ∈ l.set i v → a ∈ l ∨ a = v := by
  intro l
  induction l with
  | nil => intro i v a h; simp at h
  | cons x t ih =>
    intro i v a h
    match i with
    | 0 =>
      simp only [List.set_cons_zero] at h
      rcases List.mem_cons.mp h with h | h
      · exact Or.inr h
      · exact Or.inl (List.mem_cons_of_mem x h)
    | i + 1 =>
      simp only [List.set_cons_succ] at h
      rcases List.mem_cons.mp h with h | h
      · exact Or.inl (by simp [h])
      · rcases ih i v a h with h | h
        · exact Or.inl (List.mem_cons_of_mem x h)
        · exact Or.inr h

theorem lstrip_subset : ∀ l : Str, ∀ c ∈ lstrip l, c ∈ l := by
  intro l
  induction l with
  | nil => intro c hc; simp [lstrip] at hc
  | cons x t ih =>
    intro c hc
    simp only [lstrip] at hc
    by_cases h : isSpaceChar x
    · rw [if_pos h] at hc
      exact List.mem_cons_of_mem x (ih c hc)
    · rw [if_neg h] at hc
      exact hc

theorem pyStrip_subset (l : Str) : ∀ c ∈ pyStrip l, c ∈ l := by
  intro c hc
  unfold pyStrip rstrip at hc
  have h1 := List.mem_reverse.mp (by simpa using hc)
  have h2 := lstrip_subset _ _ h1
  have h3 := List.mem_reverse.mp (by simpa using h2)
  exact lstrip_subset _ _ h3

theorem splitOnChar_chars (sep : Char) :
    ∀ (s : Str) (l : Str), l ∈ splitOnChar sep s → ∀ c ∈ l, c ∈ s := by
  intro s
  induction s with
  | nil =>
    intro l hl c hc
    simp [splitOnChar] at hl
    subst hl
    simp at hc
  | cons x t ih =>
    intro l hl c hc
    simp only [splitOnChar] at hl
    by_cases hx : x = sep
    · rw [if_pos hx] at hl
      rcases List.mem_cons.mp hl with hl | hl
      · subst hl; simp at hc
      · exact List.mem_cons_of_mem x (ih l hl c hc)
    · rw [if_neg hx] at hl
      rcases hs : splitOnChar sep t with _ | ⟨h₀, r⟩
      · exact absurd hs (splitOnChar_ne_nil sep t)
      · rw [hs] at hl
        rcases List.mem_cons.mp hl with hl | hl
        · subst hl
          rcases List.mem_cons.mp hc with hc | hc
          · simp [hc]
          · exact List.mem_cons_of_mem x
              (ih h₀ (by rw [hs]; exact List.mem_cons_self _ _) c hc)
        · exact List.mem_cons_of_mem x
            (ih l (by rw [hs]; exact List.mem_cons_of_mem _ hl) c hc)

theorem joinChar_chars (sep : Char) :
    ∀ (ls : List Str) (c : Char), c ∈ joinChar sep ls → c = sep ∨ ∃ l ∈ ls, c ∈ l := by
  intro ls
  induction ls with
  | nil => intro c hc; simp [joinChar] at hc
  | cons l r ih =>
    intro c hc
    rcases r with _ | ⟨x, xs⟩
    · exact Or.inr ⟨l, List.mem_cons_self l [], by simpa [joinChar] using hc⟩
    · simp only [joinChar] at hc
      rcases List.mem_append.mp hc with hc | hc
      · exact Or.inr ⟨l, List.mem_cons_self _ _, hc⟩
      · rcases List.mem_cons.mp hc with hc | hc
        · exact Or.inl hc
        · rcases ih c hc with hh | ⟨l', hl', hcl⟩
          · exact Or.inl hh
          · exact Or.inr ⟨l', List.mem_cons_of_mem l hl', hcl⟩

theorem replaceAllFuel_chars :
    ∀ (fuel : Nat) (pat rep s : Str), ∀ c ∈ replaceAllFuel pat rep fuel s, c ∈ s ∨ c ∈ rep := by
  intro fuel
  induction fuel with
  | zero => intro pat rep s c hc; exact Or.inl hc
  | succ fuel ih =>
    intro pat rep s c hc
    rcases s with _ | ⟨x, t⟩
    · simp [replaceAllFuel] at hc
    · simp only [replaceAllFuel] at hc
      by_cases hp : pat ≠ [] ∧ pat.isPrefixOf (x :: t)
      · rw [if_pos hp] at hc
        rcases List.mem_append.mp hc with hc | hc
        · exact Or.inr hc
        · rcases ih pat rep _ c hc with hh | hh
          · exact Or.inl (List.drop_subset _ _ hh)
          · exact Or.inr hh
      · rw [if_neg hp] at hc
        rcases List.mem_cons.mp hc with hc | hc
        · exact Or.inl (by simp [hc])
        · rcases ih pat rep t c hc with hh | hh
          · exact Or.inl (List.mem_cons_of_mem x hh)
          · exact Or.inr hh

theorem replaceAll_single_removes (x : Char) :
    ∀ (fuel : Nat) (s : Str), s.length < fuel → x ∉ replaceAllFuel [x] [] fuel s := by
  intro fuel
  induction fuel with
  | zero => intro s h; omega
  | succ fuel ih =>
    intro s h hmem
    rcases s with _ | ⟨c, t⟩
    · simp [replaceAllFuel] at hmem
    · simp only [replaceAllFuel] at hmem
      by_cases hp : [x] ≠ [] ∧ [x].isPrefixOf (c :: t)
      · rw [if_pos hp] at hmem
        simp only [List.nil_append] at hmem
        have : (c :: t).drop 1 = t := rfl
        rw [List.length_cons] at h
        exact ih t (by omega) (by simpa [this] using hmem)
      · rw [if_neg hp] at hmem
        have hxc : ¬x = c := by
          intro hh
          exact hp ⟨by simp, by simp [List.isPrefixOf, hh]⟩
        rcases List.mem_cons.mp hmem with hm | hm
        · exact hxc hm
        · rw [List.length_cons] at h
          exact ih t (by omega) hm

theorem removeSemi_noSemi (s : Str) : ∀ c ∈ replaceAll (s2l (";")) [] s, c ≠ ';' := by
  intro c hc he
  subst he
  exact replaceAll_single_removes ';' (s.length + 1) s (Nat.lt_succ_self _) hc

theorem mem_acc_or_new (Q : Char → Prop) {acc : List Str} {x l : Str} (hl : l ∈ acc ++ [x])
    (hacc : ∀ l ∈ acc, ∀ c ∈ l, Q c) (hx : ∀ c ∈ x, Q c) : ∀ c ∈ l, Q c := by
  rcases List.mem_append.mp hl with h | h
  · exact hacc l h
  · rw [List.mem_singleton.mp h]
    exact hx

theorem indent_line_chars (Q : Char → Prop) {lvl : Int} {line : Str} (hsp : Q ' ')
    (hline : ∀ c ∈ line, Q c) : ∀ c ∈ indentSpaces lvl ++ pyStrip line, Q c := by
  intro c hc
  rcases List.mem_append.mp hc with hc | hc
  · unfold indentSpaces at hc
    rw [List.eq_of_mem_replicate hc]
    exact hsp
  · exact hline c (pyStrip_subset line c hc)

theorem cleanup_indent_step_chars (Q : Char → Prop) (hsp : Q ' ') (acc : List Str × Int)
    (line : Str) (hacc : ∀ l ∈ acc.1, ∀ c ∈ l, Q c) (hline : ∀ c ∈ line, Q c) :
    ∀ l ∈ (cleanup_indent_step acc line).1, ∀ c ∈ l, Q c := by
  intro l hl
  simp only [cleanup_indent_step] at hl
  split_ifs at hl <;>
    first
      | exact hacc l hl
      | exact mem_acc_or_new Q hl hacc (fun c hc => absurd hc (List.not_mem_nil c))
      | exact mem_acc_or_new Q hl hacc (indent_line_chars Q hsp hline)

theorem cleanup_indent_fold_chars (Q : Char → Prop) (hsp : Q ' ') :
    ∀ (lines : List Str) (acc : List Str × Int),
      (∀ l ∈ acc.1, ∀ c ∈ l, Q c) → (∀ l ∈ lines, ∀ c ∈ l, Q c) →
      ∀ l ∈ (lines.foldl cleanup_indent_step acc).1, ∀ c ∈ l, Q c := by
  intro lines
  induction lines with
  | nil => intro acc hacc _ l hl; exact hacc l hl
  | cons x t ih =>
    intro acc hacc hlines
    rw [List.foldl_cons]
    exact ih (cleanup_indent_step acc x)
      (cleanup_indent_step_chars Q hsp acc x hacc
        (hlines x (List.mem_cons_self x t)))
      (fun l hl => hlines l (List.mem_cons_of_mem x hl))

theorem replaceAll_chars (pat rep s : Str) : ∀ c ∈ replaceAll pat rep s, c ∈ s ∨ c ∈ rep :=
  fun c hc => replaceAllFuel_chars (s.length + 1) pat rep s c hc

/-- After `_cleanup_code`'s semicolon strip (line 662), the colon-fix
substitution and the indentation loop cannot reintroduce a semicolon. -/
theorem cleanup_noSemi (code out : Str) (h : cleanup_code code = some out) :
    ∀ c ∈ out, c ≠ ';' := by
  unfold cleanup_code at h
  simp only [optBind_def] at h
  obtain ⟨c1, h1, h⟩ := bind_some_elim h
  obtain ⟨c2, h2, h⟩ := bind_some_elim h
  simp at h
  subst h
  intro c hc he
  subst he
  have hmid : ∀ c ∈ replaceAll (s2l (";")) []
      (joinChar '\n' (cleanup_brace_filter (splitOnChar '\n' c1))), c ≠ ';' :=
    removeSemi_noSemi _
  have hc2 : ∀ c ∈ c2, c ≠ ';' := by
    intro c hc he
    subst he
    rcases subT_chars _ _ _ _ h2 ';' hc with hh | hh
    · exact hmid ';' hh rfl
    · revert hh; decide
  rcases joinChar_chars '\n' _ ';' hc with hh | ⟨l, hl, hcl⟩
  · exact absurd hh (by decide)
  · have := cleanup_indent_fold_chars (fun c => c ≠ ';') (by decide)
      (splitOnChar '\n' c2) ([], 0)
      (fun l hl => absurd hl (List.not_mem_nil l))
      (fun l hl c hc => hc2 c (splitOnChar_chars '\n' c2 l hl c hc))
      l hl ';' hcl
    exact this rfl

theorem post_return_step_chars (lines out : List Str) (i : Nat)
    (h : post_return_step lines i = some out)
    (hl : ∀ l ∈ lines, ∀ c ∈ l, c ≠ ';') : ∀ l ∈ out, ∀ c ∈ l, c ≠ ';' := by
  unfold post_return_step at h
  simp only [optBind_def] at h
  obtain ⟨li, hli, h⟩ := bind_some_elim h
  obtain ⟨li1, hli1, h⟩ := bind_some_elim h
  split_ifs at h <;> simp at h <;> rw [← h]
  · intro l hml c hc
    rcases mem_set_elim lines (i + 1) _ l hml with hm | hm
    · exact hl l hm c hc
    · rw [hm] at hc
      rcases List.mem_append.mp hc with hc | hc
      · rw [List.eq_of_mem_replicate hc]; decide
      · exact hl li1 (getElem?_mem' lines (i + 1) li1 hli1) c (lstrip_subset li1 c hc)
  · exact hl
  · exact hl

theorem post_loop_chars (is : List Nat) :
    ∀ lines out, is.foldlM post_return_step lines = some out →
      (∀ l ∈ lines, ∀ c ∈ l, c ≠ ';') → ∀ l ∈ out, ∀ c ∈ l, c ≠ ';' := by
  induction is with
  | nil =>
    intro lines out h hl
    simp [List.foldlM] at h
    rw [← h]
    exact hl
  | cons i t ih =>
    intro lines out h hl
    rw [List.foldlM_cons, optBind_def] at h
    obtain ⟨mid, hmid, h⟩ := bind_some_elim h
    exact ih mid out h (post_return_step_chars lines mid i hmid hl)

theorem post_preserve_noSemi (code out : Str) (h : post_process code = some out)
    (hn : ∀ c ∈ code, c ≠ ';') : ∀ c ∈ out, c ≠ ';' := by
  unfold post_process at h
  simp only [optBind_def] at h
  obtain ⟨c1, h1, h⟩ := bind_some_elim h
  obtain ⟨c2, h2, h⟩ := bind_some_elim h
  obtain ⟨c3, h3, h⟩ := bind_some_elim h
  obtain ⟨lines', hlines', h⟩ := bind_some_elim h
  simp at h
  subst h
  have hn1 : ∀ c ∈ c1, c ≠ ';' := by
    intro c hc he
    subst he
    rcases subT_chars _ _ _ _ h1 ';' hc with hh | hh
    · exact hn ';' hh rfl
    · revert hh; decide
  have hn2 : ∀ c ∈ c2, c ≠ ';' := by
    intro c hc he
    subst he
    rcases subT_chars _ _ _ _ h2 ';' hc with hh | hh
    · exact hn1 ';' hh rfl
    · revert hh; decide
  have hn3 : ∀ c ∈ c3, c ≠ ';' := by
    intro c hc he
    subst he
    rcases subT_chars _ _ _ _ h3 ';' hc with hh | hh
    · exact hn2 ';' hh rfl
    · revert hh; decide
  intro c hc he
  subst he
  rcases joinChar_chars '\n' _ ';' hc with hh | ⟨l, hml, hcl⟩
  · exact absurd hh (by decide)
  · exact post_loop_chars _ _ _ hlines'
      (fun l hl c hc => hn3 c (splitOnChar_chars '\n' c3 l hl c hc))
      l hml ';' hcl rfl

theorem import_candidates_noSemi (code : Str) :
    ∀ l ∈ import_candidates code, ∀ c ∈ l, c ≠ ';' := by
  intro l hl
  unfold import_candidates at hl
  rcases List.mem_append.mp hl with h | h
  rcases List.mem_append.mp h with h | h
  rcases List.mem_append.mp h with h | h
  rcases List.mem_append.mp h with h | h
  rcases List.mem_append.mp h with h | h
  all_goals
    rw [(mem_ite_singleton h).1]
  all_goals decide

theorem generate_imports_noSemi (code : Str) :
    ∀ c ∈ generate_imports code, c ≠ ';' := by
  intro c hc
  unfold generate_imports at hc
  rcases joinChar_chars '\n' _ c hc with hh | ⟨l, hml, hcl⟩
  · rw [hh]; decide
  · exact import_candidates_noSemi code l hml c hcl

theorem convert_body_noSemi (ρ : RTable) (s body : Str)
    (h : convert_body ρ s = some body) : ∀ c ∈ body, c ≠ ';' := by
  unfold convert_body at h
  simp only [optBind_def] at h
  obtain ⟨c0, h0, h⟩ := bind_some_elim h
  obtain ⟨c1, h1, h⟩ := bind_some_elim h
  obtain ⟨c2, h2, h⟩ := bind_some_elim h
  obtain ⟨c3, h3, h⟩ := bind_some_elim h
  obtain ⟨c4, h4, h⟩ := bind_some_elim h
  obtain ⟨p, hp, h⟩ := bind_some_elim h
  obtain ⟨c5, ρ'⟩ := p
  obtain ⟨c6, h6, h⟩ := bind_some_elim h
  obtain ⟨c7, h7, h⟩ := bind_some_elim h
  obtain ⟨c8, h8, h⟩ := bind_some_elim h
  obtain ⟨c9, h9, h⟩ := bind_some_elim h
  obtain ⟨c10, h10, h⟩ := bind_some_elim h
  exact post_preserve_noSemi c10 body h (cleanup_noSemi c9 c10 h10)

set_option maxHeartbeats 1000000 in
/-- C10. For every input string (and every prior rename-table state),
the string `convert` returns contains no semicolon at all: every `;` of
the input — stand-alone or inside string/template literals — is deleted
by the global `.replace(';', '')` calls, and no later pass or
synthesized import line reintroduces one. -/
theorem c10_no_semicolons : ∀ (ρ : RTable) (s out : Str),
    convert ρ s = some out → ';' ∉ out := by
  intro ρ s out h hmem
  unfold convert at h
  simp only [optBind_def] at h
  obtain ⟨body, hb, h⟩ := bind_some_elim h
  simp at h
  subst h
  have hbody := convert_body_noSemi ρ s body hb
  by_cases himp : generate_imports body = []
  · simp only [if_pos himp] at hmem
    exact hbody ';' hmem rfl
  · simp only [if_neg himp] at hmem
    rcases List.mem_append.mp hmem with hm | hm
    · exact generate_imports_noSemi body ';' hm rfl
    · rcases List.mem_append.mp hm with hm | hm
      · revert hm; decide
      · exact hbody ';' hm rfl

set_option maxRecDepth 100000 in
/-- C10 (witness): the theorem applied at the concrete input `a;b`,
whose conversion is `ab`. -/
theorem c10_no_semicolons_witness : ';' ∉ s2l ("ab") :=
  c10_no_semicolons [] (s2l ("a;b")) (s2l ("ab")) (by decide)

/-! ## Claim theorems (concrete computations) -/

/-- C9. `convert` is deterministic and carries no state between calls: a
converter whose `renamed_vars` table is in an arbitrary prior state `ρ`
produces exactly the output of the fresh converter that `js_to_python`
constructs — the pass `_convert_variables` resets the only piece of
per-object state before reading it, so the prior state never influences
the result. -/
theorem c9_deterministic (ρ : RTable) (s : String) :
    (convert ρ (s2l s)).map l2s = js_to_python s := rfl

set_option maxRecDepth 100000 in
set_option maxHeartbeats 4000000 in
/-- C4. The array-method test cases: `items.filter(x => x > 0)` converts
to output containing `[x for x in items if x > 0]`; `items.map(x => x * 2)`
to output containing `[x * 2 for x in items]`; and
`numbers.reduce((a, b) => a + b, 0)` to output containing
`functools.reduce(lambda a, b: a + b, numbers, 0)` with the line
`import functools` present in the output. -/
theorem c4_array_method_cases :
    convert [] c4f_in = some c4f_out ∧
    containsSubstr c4f_out (s2l ("[x for x in items if x > 0]")) = true ∧
    convert [] c4m_in = some c4m_out ∧
    containsSubstr c4m_out (s2l ("[x * 2 for x in items]")) = true ∧
    convert [] c4r_in = some c4r_out ∧
    containsSubstr c4r_out (s2l ("functools.reduce(lambda a, b: a + b, numbers, 0)")) = true ∧
    (s2l ("import functools")) ∈ linesOf c4r_out := by decide

set_option maxRecDepth 100000 in
set_option maxHeartbeats 1000000 in
/-- C5 (counterexample). The typing import is triggered by the bare
substring `Any`, not only by bracketed typing names: on input `Anybody`
the produced Python text is `Anybody`, which contains none of the
bracketed triggers, yet `convert` prepends the typing import line. -/
theorem c5_counterexample :
    convert_body [] (s2l ("Anybody")) = some (s2l ("Anybody")) ∧
    claimedTypingTriggers.all (fun tr => !containsSubstr (s2l ("Anybody")) tr) = true ∧
    convert [] (s2l ("Anybody")) = some (typingLine ++ s2l ("\n\nAnybody")) := by decide


/-! ## C8: the cleanup pass's indentation counter -/

/-- The indentation transition the code performs: the second component
of `cleanup_indent_step` (it does not depend on the accumulated lines). -/
def code_indent_step (lvl : Int) (line : Str) : Int :=
  (cleanup_indent_step ([], lvl) line).2

/-- The indentation transition exactly as the claim words it:
decremented by one, saturating at zero, before a line beginning with
`elif`/`else`/`except`/`finally`, and incremented after a line ending in
`:` unless that colon ends a string literal (a `":` or `\':` suffix). -/
def claimed_indent_step (lvl : Int) (line : Str) : Int :=
  let lvl' :=
    if startsWithAny line [s2l ("elif"), s2l ("else"), s2l ("except"), s2l ("finally")] then
      max 0 (lvl - 1)
    else lvl
  if endsWith line [':'] &&
      !(endsWith line (s2l ("\":")) || endsWith line (s2l ("\':"))) then
    lvl' + 1
  else lvl'

/-- The claim's transition amended with the exceptions the code actually
makes: the line is first stripped of surrounding whitespace, blank lines
leave the counter unchanged, lines containing the internal `__INDENT__`
marker are dropped after the decrement but never increment, and comment
lines (starting `#`) never increment. -/
def amended_indent_step (lvl : Int) (line : Str) : Int :=
  let stripped := pyStrip line
  if stripped = [] then lvl
  else
    let lvl' :=
      if startsWithAny stripped [s2l ("elif"), s2l ("else"), s2l ("except"), s2l ("finally")] then
        max 0 (lvl - 1)
      else lvl
    if containsSubstr stripped (s2l ("__INDENT__")) then lvl'
    else if endsWith stripped [':'] &&
        !(endsWith stripped (s2l ("\":")) || endsWith stripped (s2l ("\':")) ||
          startsWith stripped ['#']) then
      lvl' + 1
    else lvl'

theorem cleanup_indent_step_nonneg (acc : List Str × Int) (line : Str) (h : 0 ≤ acc.2) :
    0 ≤ (cleanup_indent_step acc line).2 := by
  simp only [cleanup_indent_step]
  split_ifs <;> dsimp only <;> omega

theorem cleanup_indent_fold_nonneg :
    ∀ (lines : List Str) (acc : List Str × Int), 0 ≤ acc.2 →
      0 ≤ (lines.foldl cleanup_indent_step acc).2 := by
  intro lines
  induction lines with
  | nil => intro acc h; exact h
  | cons x t ih =>
    intro acc h
    rw [List.foldl_cons]
    exact ih (cleanup_indent_step acc x) (cleanup_indent_step_nonneg acc x h)

/-- C8 (counterexample). A comment line ending in a colon — `# a:` —
refutes the claimed transition: the colon does not end a string literal,
so the claim says the counter is incremented, but the code never
increments after a line starting with `#`. -/
theorem c8_counterexample :
    code_indent_step 0 (s2l ("# a:")) = 0 ∧ claimed_indent_step 0 (s2l ("# a:")) = 1 := by
  decide

/-- C8 (amended). The nesting counter is never negative at any point of
the forward pass (the decrement saturates at zero), and the code's
transition equals the claimed one amended with the code's remaining
exceptions: lines are stripped first, blank and `__INDENT__` lines and
comment lines (starting `#`) never increment. -/
theorem c8_amended :
    (∀ lines : List Str, 0 ≤ (lines.foldl cleanup_indent_step ([], 0)).2) ∧
    (∀ (lvl : Int) (line : Str), code_indent_step lvl line = amended_indent_step lvl line) := by
  constructor
  · intro lines
    exact cleanup_indent_fold_nonneg lines ([], 0) le_rfl
  · intro lvl line
    simp only [code_indent_step, cleanup_indent_step, amended_indent_step]
    split_ifs <;> rfl

/-! ## C5 (amended): the synthesized-import triggers -/

theorem c5_typing_mem (code : Str) :
    typingLine ∈ import_candidates code ↔
      (typingHints.any fun hint => containsSubstr code hint) = true := by
  constructor
  · intro h
    unfold import_candidates at h
    rcases List.mem_append.mp h with h | h
    rcases List.mem_append.mp h with h | h
    rcases List.mem_append.mp h with h | h
    rcases List.mem_append.mp h with h | h
    rcases List.mem_append.mp h with h | h
    · exact (mem_ite_singleton h).2
    · exact absurd (mem_ite_singleton h).1 (by decide)
    · exact absurd (mem_ite_singleton h).1 (by decide)
    · exact absurd (mem_ite_singleton h).1 (by decide)
    · exact absurd (mem_ite_singleton h).1 (by decide)
    · exact absurd (mem_ite_singleton h).1 (by decide)
  · intro h
    unfold import_candidates
    refine List.mem_append.mpr (Or.inl ?_)
    refine List.mem_append.mpr (Or.inl ?_)
    refine List.mem_append.mpr (Or.inl ?_)
    refine List.mem_append.mpr (Or.inl ?_)
    refine List.mem_append.mpr (Or.inl ?_)
    simp [h]

theorem c5_asyncio_mem (code : Str) :
    s2l ("import asyncio") ∈ import_candidates code ↔
      (containsSubstr code (s2l ("async def")) || containsSubstr code (s2l ("await"))) = true := by
  constructor
  · intro h
    unfold import_candidates at h
    rcases List.mem_append.mp h with h | h
    rcases List.mem_append.mp h with h | h
    rcases List.mem_append.mp h with h | h
    rcases List.mem_append.mp h with h | h
    rcases List.mem_append.mp h with h | h
    · exact absurd (mem_ite_singleton h).1 (by decide)
    · exact (mem_ite_singleton h).2
    · exact absurd (mem_ite_singleton h).1 (by decide)
    · exact absurd (mem_ite_singleton h).1 (by decide)
    · exact absurd (mem_ite_singleton h).1 (by decide)
    · exact absurd (mem_ite_singleton h).1 (by decide)
  · intro h
    unfold import_candidates
    refine List.mem_append.mpr (Or.inl ?_)
    refine List.mem_append.mpr (Or.inl ?_)
    refine List.mem_append.mpr (Or.inl ?_)
    refine List.mem_append.mpr (Or.inl ?_)
    refine List.mem_append.mpr (Or.inr ?_)
    simp [h]

theorem c5_math_mem (code : Str) :
    s2l ("import math") ∈ import_candidates code ↔
      containsSubstr code (s2l ("math.")) = true := by
  constructor
  · intro h
    unfold import_candidates at h
    rcases List.mem_append.mp h with h | h
    rcases List.mem_append.mp h with h | h
    rcases List.mem_append.mp h with h | h
    rcases List.mem_append.mp h with h | h
    rcases List.mem_append.mp h with h | h
    · exact absurd (mem_ite_singleton h).1 (by decide)
    · exact absurd (mem_ite_singleton h).1 (by decide)
    · exact (mem_ite_singleton h).2
    · exact absurd (mem_ite_singleton h).1 (by decide)
    · exact absurd (mem_ite_singleton h).1 (by decide)
    · exact absurd (mem_ite_singleton h).1 (by decide)
  · intro h
    unfold import_candidates
    refine List.mem_append.mpr (Or.inl ?_)
    refine List.mem_append.mpr (Or.inl ?_)
    refine List.mem_append.mpr (Or.inl ?_)
    refine List.mem_append.mpr (Or.inr ?_)
    simp [h]

theorem c5_random_mem (code : Str) :
    s2l ("import random") ∈ import_candidates code ↔
      containsSubstr code (s2l ("random.")) = true := by
  constructor
  · intro h
    unfold import_candidates at h
    rcases List.mem_append.mp h with h | h
    rcases List.mem_append.mp h with h | h
    rcases List.mem_append.mp h with h | h
    rcases List.mem_append.mp h with h | h
    rcases List.mem_append.mp h with h | h
    · exact absurd (mem_ite_singleton h).1 (by decide)
    · exact absurd (mem_ite_singleton h).1 (by decide)
    · exact absurd (mem_ite_singleton h).1 (by decide)
    · exact (mem_ite_singleton h).2
    · exact absurd (mem_ite_singleton h).1 (by decide)
    · exact absurd (mem_ite_singleton h).1 (by decide)
  · intro h
    unfold import_candidates
    refine List.mem_append.mpr (Or.inl ?_)
    refine List.mem_append.mpr (Or.inl ?_)
    refine List.mem_append.mpr (Or.inr ?_)
    simp [h]

theorem c5_json_mem (code : Str) :
    s2l ("import json") ∈ import_candidates code ↔
      containsSubstr code (s2l ("json.")) = true := by
  constructor
  · intro h
    unfold import_candidates at h
    rcases List.mem_append.mp h with h | h
    rcases List.mem_append.mp h with h | h
    rcases List.mem_append.mp h with h | h
    rcases List.mem_append.mp h with h | h
    rcases List.mem_append.mp h with h | h
    · exact absurd (mem_ite_singleton h).1 (by decide)
    · exact absurd (mem_ite_singleton h).1 (by decide)
    · exact absurd (mem_ite_singleton h).1 (by decide)
    · exact absurd (mem_ite_singleton h).1 (by decide)
    · exact (mem_ite_singleton h).2
    · exact absurd (mem_ite_singleton h).1 (by decide)
  · intro h
    unfold import_candidates
    refine List.mem_append.mpr (Or.inl ?_)
    refine List.mem_append.mpr (Or.inr ?_)
    simp [h]

theorem c5_functools_mem (code : Str) :
    s2l ("import functools") ∈ import_candidates code ↔
      containsSubstr code (s2l ("functools.reduce")) = true := by
  constructor
  · intro h
    unfold import_candidates at h
    rcases List.mem_append.mp h with h | h
    rcases List.mem_append.mp h with h | h
    rcases List.mem_append.mp h with h | h
    rcases List.mem_append.mp h with h | h
    rcases List.mem_append.mp h with h | h
    · exact absurd (mem_ite_singleton h).1 (by decide)
    · exact absurd (mem_ite_singleton h).1 (by decide)
    · exact absurd (mem_ite_singleton h).1 (by decide)
    · exact absurd (mem_ite_singleton h).1 (by decide)
    · exact absurd (mem_ite_singleton h).1 (by decide)
    · exact (mem_ite_singleton h).2
  · intro h
    unfold import_candidates
    refine List.mem_append.mpr (Or.inr ?_)
    simp [h]

/-- C5 (amended). Each synthesized import line is included if and only
if its lexical trigger occurs in the produced Python text, each decided
independently of the others; the typing-import trigger set is
`List[`/`Dict[`/`Any` (unbracketed)/`Union[`/`Optional[`/`Awaitable[`,
and `convert` prepends the joined lines, separated by one blank line,
exactly when at least one candidate fired. -/
theorem c5_amended :
    (∀ code : Str,
      (typingLine ∈ import_candidates code ↔
        (typingHints.any fun hint => containsSubstr code hint) = true) ∧
      (s2l ("import asyncio") ∈ import_candidates code ↔
        (containsSubstr code (s2l ("async def")) || containsSubstr code (s2l ("await"))) = true) ∧
      (s2l ("import math") ∈ import_candidates code ↔
        containsSubstr code (s2l ("math.")) = true) ∧
      (s2l ("import random") ∈ import_candidates code ↔
        containsSubstr code (s2l ("random.")) = true) ∧
      (s2l ("import json") ∈ import_candidates code ↔
        containsSubstr code (s2l ("json.")) = true) ∧
      (s2l ("import functools") ∈ import_candidates code ↔
        containsSubstr code (s2l ("functools.reduce")) = true)) ∧
    (∀ (ρ : RTable) (s : Str), convert ρ s = (convert_body ρ s).map fun body =>
      if generate_imports body ≠ [] then
        generate_imports body ++ s2l ("\n\n") ++ body
      else body) := by
  constructor
  · intro code
    exact ⟨c5_typing_mem code, c5_asyncio_mem code, c5_math_mem code,
      c5_random_mem code, c5_json_mem code, c5_functools_mem code⟩
  · intro ρ s
    unfold convert
    cases hcb : convert_body ρ s with
    | none => rfl
    | some body => rfl

end JsPy
